import Mathlib

/-!
# xcrawl: the concurrent frontier-traversal engine of `crawler.go`

A shallow embedding of `crawler.go`.

* The pure helpers `searchLinks`, `resolveRef` and `uriEnqueue` are Lean functions.
  The libraries they call (`purell`, `net/url`, `scrape`, `request`) are parameters.
* `main` with its goroutines is an interleaving transition system: one `Action` is one
  atomic operation of one goroutine (a channel rendezvous, an atomic counter operation,
  a `close`, or a stretch of code that touches only data of the goroutine running it).
* A Go panic is an explicit outcome: `Outcome.panic` for the helpers and the flag
  `State.panicked` for the running program.
-/

namespace XCrawl

/-! ## Data model -/

/-- Width in bits of Go's `uint` on the 64-bit targets. -/
def uintBits : Nat := 64

/-- Go `type depthInfo struct { link string; depth uint }`. -/
structure depthInfo where
  link : String
  depth : Nat
deriving DecidableEq, Repr

/-- The `Search` member of `crawlOpt`: the search constraints. -/
structure SearchOpt where
  MaxDepth : Nat
  SameHost : Bool
  ContainsTags : List String
deriving Repr

/-- The `Record` member of `crawlOpt`: the options for recording. -/
structure RecordOpt where
  Tags : List String
  Attr : String
deriving Repr

/-- Go `type crawlOpt struct { Search struct {...}; Record struct {...} }`. -/
structure crawlOpt where
  Search : SearchOpt
  Record : RecordOpt
deriving Repr

/-- Go `html.Attribute`. -/
structure Attribute where
  Namespace : String
  Key : String
  Val : String
deriving DecidableEq, Repr

/-- Go `html.Node`, reduced to the tag name, the attributes and the children. -/
inductive Node where
  | mk (Data : String) (Attr : List Attribute) (children : List Node)

/-- The tag name `n.Data`. -/
def Node.Data : Node → String
  | .mk d _ _ => d

/-- The attribute list `n.Attr`. -/
def Node.Attr : Node → List Attribute
  | .mk _ a _ => a

/-- The child nodes of `n`. -/
def Node.children : Node → List Node
  | .mk _ _ c => c

/-- The result of a Go call that may panic instead of returning. -/
inductive Outcome (α : Type) where
  | ret (a : α)
  | panic
deriving DecidableEq, Repr

/-- The operations of `purell` and `net/url` that `resolveRef` calls, over an abstract
type `URL` standing for `*url.URL`.  `NormalizeURLString u` is
`purell.NormalizeURLString(u, purell.FlagsUnsafeGreedy)` with `none` for an error,
`Parse` is `url.Parse` with the error message on failure, `ResolveReference base ref` is
`base.ResolveReference(ref)`, `Hostname` is `(*URL).Hostname` and `URLString` is
`(*URL).String`. -/
structure UrlLib (URL : Type) where
  NormalizeURLString : String → Option String
  Parse : String → Except String URL
  ResolveReference : URL → URL → URL
  Hostname : URL → String
  URLString : URL → String

/-- Go `purell.MustNormalizeURLString`: the normalised string, and a panic when
`NormalizeURLString` reports an error. -/
def MustNormalizeURLString {URL : Type} (lib : UrlLib URL) (u : String) : Outcome String :=
  match lib.NormalizeURLString u with
  | some r => .ret r
  | none => .panic

/-! ## `resolveRef` -/

/-- Go `resolveRef(base, ref string, SameHost bool) (link string, err error)`.
The pair returned is `(link, err)` with `err = none` for Go's `nil`.  The reference is
normalised and parsed first, then the base; `link` keeps its zero value `""` on every
path but the last. -/
def resolveRef {URL : Type} (lib : UrlLib URL) (base ref : String) (SameHost : Bool) :
    Outcome (String × Option String) :=
  match MustNormalizeURLString lib ref with
  | .panic => .panic
  | .ret nref =>
    match lib.Parse nref with
    | .error e => .ret ("", some e)
    | .ok refURL =>
      match MustNormalizeURLString lib base with
      | .panic => .panic
      | .ret nbase =>
        match lib.Parse nbase with
        | .error e => .ret ("", some e)
        | .ok baseURL =>
          let resURL := lib.ResolveReference baseURL refURL
          let hostname := lib.Hostname resURL
          if hostname.length = 0 then
            .ret ("", some ("invalid uri: " ++ ""))
          else if SameHost && hostname != lib.Hostname baseURL then
            .ret ("", some ("external hostname: " ++ hostname))
          else
            .ret (lib.URLString resURL, none)

/-! ## `searchLinks` -/

/-- The inner loop of `searchLinks`: append the value of every `href` attribute. -/
def appendHrefs (links : List String) (attrs : List Attribute) : List String :=
  attrs.foldl (fun acc attr => if attr.Key = "href" then acc ++ [attr.Val] else acc) links

/-- Go `searchLinks(elems []*html.Node, opt *crawlOpt) []string`.  `FindAll tags` is
`scrape.FindAll(tags...)`, the finder of the `scrape` package. -/
def searchLinks (FindAll : List String → Node → List Node) (elems : List Node)
    (opt : crawlOpt) : List String :=
  let containment := FindAll opt.Search.ContainsTags
  elems.foldl
    (fun links elem =>
      if opt.Search.ContainsTags.length > 0 && (containment elem).length == 0 then links
      else appendHrefs links elem.Attr)
    []

/-- The containment filter in the spec's words: every element passes when `ContainsTags`
is empty, otherwise the elements for which the finder returns at least one match. -/
def passesContainment (FindAll : List String → Node → List Node) (opt : crawlOpt)
    (elem : Node) : Bool :=
  opt.Search.ContainsTags.isEmpty || !(FindAll opt.Search.ContainsTags elem).isEmpty

/-- The values of the `href` attributes of one element, in attribute order. -/
def hrefsOf (elem : Node) : List String :=
  (elem.Attr.filter (fun attr => attr.Key = "href")).map (fun attr => attr.Val)

/-- The link list in the spec's words: the hrefs of the elements that pass the
containment filter, in element order and then attribute order. -/
def searchLinksSpec (FindAll : List String → Node → List Node) (elems : List Node)
    (opt : crawlOpt) : List String :=
  ((elems.filter (passesContainment FindAll opt)).map hrefsOf).flatten

/-! ## The environment of a run -/

/-- Everything a run of `main` reads from outside: the command line argument `args[0]`,
the options decoded from the YAML file, the URL libraries, `scrape.FindAll`, and the
outcome of `request` for each link (`none` for an error). -/
structure Env (URL : Type) where
  args0 : String
  opt : crawlOpt
  lib : UrlLib URL
  FindAll : List String → Node → List Node
  request : String → Option Node

/-! ## `uriEnqueue` -/

/-- The body of the `for _, link := range links` loop of `uriEnqueue`: the handler is
called when `resolveRef` returned a nil error. -/
def enqueueLink {URL σ : Type} (lib : UrlLib URL) (uri : String) (opt : crawlOpt)
    (linkHandle : String → σ → σ) (link : String) (st : σ) : Outcome σ :=
  match resolveRef lib uri link opt.Search.SameHost with
  | .panic => .panic
  | .ret (validLink, err) =>
    match err with
    | none => .ret (linkHandle validLink st)
    | some _ => .ret st

/-- The loop of `uriEnqueue` over the extracted links; a panic ends it. -/
def enqueueLinks {URL σ : Type} (lib : UrlLib URL) (uri : String) (opt : crawlOpt)
    (linkHandle : String → σ → σ) : List String → σ → Outcome σ
  | [], st => .ret st
  | link :: rest, st =>
    match enqueueLink lib uri opt linkHandle link st with
    | .panic => .panic
    | .ret st1 => enqueueLinks lib uri opt linkHandle rest st1

/-- Go `uriEnqueue(uri string, opt *crawlOpt, linkHandle func(string))`, as a state
transformer over whatever state `σ` the handler updates.  The goroutine that records
the asset attributes only prints and is left out. -/
def uriEnqueue {URL σ : Type} (env : Env URL) (uri : String)
    (linkHandle : String → σ → σ) (st : σ) : Outcome σ :=
  match env.request uri with
  | none => .ret st
  | some body =>
    enqueueLinks env.lib uri env.opt linkHandle
      (searchLinks env.FindAll (env.FindAll ["a"] body) env.opt) st

/-! ## Shared objects of `main` -/

/-- Modelled from the spec: `crutils.AtomicInt`, the counter type of the missing
package `crutils`; the spec's OutstandingCounter, a single integer that `register()`
atomically increments and `complete()` atomically decrements.  Its values are the
integers. -/
abbrev AtomicInt := Int

/-- Modelled from the spec: `goCount.Increment()`, the counter plus one. -/
def AtomicInt.Increment (c : Int) : Int := c + 1

/-- Modelled from the spec: `goCount.Decrement()`, the counter minus one; the value
returned is the post-decrement value, the new counter itself. -/
def AtomicInt.Decrement (c : Int) : Int := c - 1

/-- The `set.v0` set of strings behind `visited`. -/
abbrev VisitedSet := List String

/-- Go `visited.Has(x)`. -/
def VisitedSet.Has (v : VisitedSet) (x : String) : Bool := decide (x ∈ v)

/-- Go `visited.Add(x)`. -/
def VisitedSet.Add (v : VisitedSet) (x : String) : VisitedSet :=
  if x ∈ v then v else x :: v

/-! ## `main` as a transition system -/

/-- Where the main goroutine stands.
* `recv`: at `for site := range queue`, waiting for an item or for the close;
* `inc`: an item with `site.depth <= MaxDepth` is in `site`, next is `goCount.Increment()`;
* `fetch`: inside `uriEnqueue`, next is `request(uri)`;
* `links rest`: inside the loop of `uriEnqueue`, `rest` are the links still to handle;
* `signal`: `uriEnqueue` has returned, next is `stopCh <- struct{}{}`;
* `returned`: the range loop has ended and `main` has returned. -/
inductive MainPC where
  | recv
  | inc
  | fetch
  | links (rest : List String)
  | signal
  | returned
deriving DecidableEq, Repr

/-- Where the termination goroutine stands.
* `wait`: at `for range stopCh`, waiting for a signal;
* `dec`: a signal was received, next is `goCount.Decrement() == 0`;
* `closeQueue`: the decrement returned 0, next is `close(queue)`;
* `closeStop`: next is `close(stopCh)`;
* `done`: the range loop over the closed `stopCh` has ended. -/
inductive TermPC where
  | wait
  | dec
  | closeQueue
  | closeStop
  | done
deriving DecidableEq, Repr

/-- The state of a run of `main`.  The first group is the program state; the second
group is history: logs, newest entry first, that no transition reads.

`site` is the loop variable of `for site := range queue`.  It is one variable for the
whole loop (the range clause of Go before 1.22 re-uses its iteration variable), and the
enqueuer closures refer to it.  `spawned` holds the `next_site` of every enqueuer
goroutine that was started and has not yet evaluated the operand
`depthInfo{link: next_site, depth: site.depth + 1}` of its send; `sending` holds the
operands of the enqueuers blocked in `queue <- ...`; `signalling` holds the enqueuers
whose send on `queue` is done and whose `stopCh <- struct{}{}` is next. -/
structure State where
  main : MainPC
  site : depthInfo
  term : TermPC
  goCount : Int
  queueClosed : Bool
  stopClosed : Bool
  visited : VisitedSet
  seedPending : Bool
  spawned : List String
  sending : List depthInfo
  signalling : List depthInfo
  panicked : Bool
  placed : List depthInfo
  accepted : List depthInfo
  dropped : List depthInfo
  fetched : List depthInfo
  claimed : List String
  driverDone : List depthInfo
  enqDone : List depthInfo
deriving Repr

/-- The state when the range loop of `main` is first reached: the counter is 0, the
visited set holds `args[0]`, and the seed goroutine is about to send
`depthInfo{args[0], 0}`. -/
def State.init {URL : Type} (env : Env URL) : State where
  main := .recv
  site := ⟨"", 0⟩
  term := .wait
  goCount := 0
  queueClosed := false
  stopClosed := false
  visited := VisitedSet.Add [] env.args0
  seedPending := true
  spawned := []
  sending := []
  signalling := []
  panicked := false
  placed := []
  accepted := []
  dropped := []
  fetched := []
  claimed := []
  driverDone := []
  enqDone := []

/-- The closure `func(next_site string)` that `main` passes to `uriEnqueue`: test the
visited set, add, increment the counter and start the enqueuer goroutine. -/
def linkHandle (next_site : String) (s : State) : State :=
  if !(s.visited.Has next_site) then
    { s with
      visited := s.visited.Add next_site
      goCount := AtomicInt.Increment s.goCount
      spawned := next_site :: s.spawned
      claimed := next_site :: s.claimed }
  else s

/-- The head of the range loop once `item` has been received: `site` is assigned, and
the test `site.depth <= opt.Search.MaxDepth` either leads to the increment or straight
back to the receive. -/
def receive {URL : Type} (env : Env URL) (s : State) (item : depthInfo) : State :=
  if item.depth ≤ env.opt.Search.MaxDepth then
    { s with site := item, placed := item :: s.placed, main := .inc }
  else
    { s with site := item, placed := item :: s.placed, main := .recv,
             dropped := item :: s.dropped }

/-- The atomic operations of the goroutines of `main`. -/
inductive Action where
  | recvSeed
  | evalOperand (next_site : String)
  | recvItem (item : depthInfo)
  | panicQueue
  | mainExit
  | mainInc
  | mainFetch
  | mainLink
  | mainSignal
  | enqSignal (item : depthInfo)
  | panicStop
  | termDec
  | termCloseQueue
  | termCloseStop
deriving DecidableEq, Repr

/-- One atomic operation, `none` when it is not enabled.
* `recvSeed`, `recvItem`: rendezvous on the unbuffered `queue` between the seed
  goroutine or an enqueuer and the range loop of `main`;
* `evalOperand`: an enqueuer evaluates `depthInfo{link: next_site, depth: site.depth + 1}`;
* `panicQueue`, `panicStop`: a goroutine sends on a closed channel;
* `mainExit`: the range loop sees `queue` closed;
* `mainInc`, `mainFetch`, `mainLink`, `mainSignal`: the body of the range loop;
* `enqSignal`: rendezvous on `stopCh` between an enqueuer and the termination goroutine;
* `termDec`, `termCloseQueue`, `termCloseStop`: the body of the termination goroutine. -/
def perform {URL : Type} (env : Env URL) (s : State) : Action → Option State
  | .recvSeed =>
    if s.main = .recv ∧ s.seedPending = true ∧ s.queueClosed = false then
      some (receive env { s with seedPending := false } ⟨env.args0, 0⟩)
    else none
  | .evalOperand next_site =>
    if next_site ∈ s.spawned then
      some { s with
        spawned := s.spawned.erase next_site
        sending := ⟨next_site, (s.site.depth + 1) % 2 ^ uintBits⟩ :: s.sending }
    else none
  | .recvItem item =>
    if s.main = .recv ∧ item ∈ s.sending ∧ s.queueClosed = false then
      some (receive env
        { s with sending := s.sending.erase item, signalling := item :: s.signalling } item)
    else none
  | .panicQueue =>
    if s.queueClosed = true ∧ (s.seedPending = true ∨ s.sending ≠ []) then
      some { s with panicked := true }
    else none
  | .mainExit =>
    if s.main = .recv ∧ s.queueClosed = true then some { s with main := .returned }
    else none
  | .mainInc =>
    if s.main = .inc then
      some { s with
        goCount := AtomicInt.Increment s.goCount
        accepted := s.site :: s.accepted
        main := .fetch }
    else none
  | .mainFetch =>
    if s.main = .fetch then
      match env.request s.site.link with
      | none => some { s with fetched := s.site :: s.fetched, main := .signal }
      | some body =>
        some { s with
          fetched := s.site :: s.fetched
          main := .links (searchLinks env.FindAll (env.FindAll ["a"] body) env.opt) }
    else none
  | .mainLink =>
    match s.main with
    | .links [] => some { s with main := .signal }
    | .links (link :: rest) =>
      match enqueueLink env.lib s.site.link env.opt linkHandle link
          { s with main := .links rest } with
      | .ret s1 => some s1
      | .panic => some { s with panicked := true }
    | _ => none
  | .mainSignal =>
    if s.main = .signal ∧ s.term = .wait ∧ s.stopClosed = false then
      some { s with main := .recv, term := .dec, driverDone := s.site :: s.driverDone }
    else none
  | .enqSignal item =>
    if item ∈ s.signalling ∧ s.term = .wait ∧ s.stopClosed = false then
      some { s with
        signalling := s.signalling.erase item
        term := .dec
        enqDone := item :: s.enqDone }
    else none
  | .panicStop =>
    if s.stopClosed = true ∧ (s.main = .signal ∨ s.signalling ≠ []) then
      some { s with panicked := true }
    else none
  | .termDec =>
    if s.term = .dec then
      some { s with
        goCount := AtomicInt.Decrement s.goCount
        term := if AtomicInt.Decrement s.goCount = 0 then .closeQueue else .wait }
    else none
  | .termCloseQueue =>
    if s.term = .closeQueue then some { s with queueClosed := true, term := .closeStop }
    else none
  | .termCloseStop =>
    if s.term = .closeStop then some { s with stopClosed := true, term := .done }
    else none

/-- One operation of a running program: nothing runs once `main` has returned (the
process exits) or a goroutine has panicked (the process aborts). -/
def step? {URL : Type} (env : Env URL) (s : State) (a : Action) : Option State :=
  if s.main = .returned ∨ s.panicked = true then none else perform env s a

/-- One scheduling decision: the operation is performed when enabled, and the state is
left as it is otherwise. -/
def step {URL : Type} (env : Env URL) (s : State) (a : Action) : State :=
  (step? env s a).getD s

/-- The state after a schedule, starting from `s`. -/
def execFrom {URL : Type} (env : Env URL) (s : State) : List Action → State
  | [] => s
  | a :: rest => execFrom env (step env s a) rest

/-- The state of a run of `main` after the schedule `sched`. -/
def exec {URL : Type} (env : Env URL) (sched : List Action) : State :=
  execFrom env (State.init env) sched

/-- The number of `register()` calls so far: the increments at dequeue-accept and at
link discovery. -/
def State.registers (s : State) : Nat := s.accepted.length + s.claimed.length

/-- The number of `complete()` calls so far: the signals sent on `stopCh` by the driver
and by the enqueuers. -/
def State.completes (s : State) : Nat := s.driverDone.length + s.enqDone.length

/-- Whether the main goroutine is between its `goCount.Increment()` and its
`stopCh <- struct{}{}` for the item in `site`. -/
def MainPC.busy : MainPC → Bool
  | .fetch => true
  | .links _ => true
  | .signal => true
  | _ => false

/-- Whether the termination goroutine has seen `goCount.Decrement() == 0`. -/
def TermPC.closing : TermPC → Bool
  | .closeQueue => true
  | .closeStop => true
  | .done => true
  | _ => false

/-- The transitions of `step?`, one constructor for each way an operation changes the
state.  `recvSeed`, `recvAccept` and `recvDrop` are the receives of the range loop,
`linkSkip` and `linkClaim` the two ways one link of `uriEnqueue` ends without a panic,
and `panic` covers every send on a closed channel and the panic of `resolveRef`. -/
inductive Step {URL : Type} (env : Env URL) (s : State) : State → Prop
  | recvSeed : s.main = .recv → s.seedPending = true → s.queueClosed = false →
      Step env s { s with seedPending := false, site := ⟨env.args0, 0⟩,
                          placed := ⟨env.args0, 0⟩ :: s.placed, main := .inc }
  | evalOperand (u : String) : u ∈ s.spawned →
      Step env s { s with spawned := s.spawned.erase u,
                          sending := ⟨u, (s.site.depth + 1) % 2 ^ uintBits⟩ :: s.sending }
  | recvAccept (item : depthInfo) : s.main = .recv → item ∈ s.sending →
      s.queueClosed = false → item.depth ≤ env.opt.Search.MaxDepth →
      Step env s { s with sending := s.sending.erase item, signalling := item :: s.signalling,
                          site := item, placed := item :: s.placed, main := .inc }
  | recvDrop (item : depthInfo) : s.main = .recv → item ∈ s.sending →
      s.queueClosed = false → env.opt.Search.MaxDepth < item.depth →
      Step env s { s with sending := s.sending.erase item, signalling := item :: s.signalling,
                          site := item, placed := item :: s.placed, main := .recv,
                          dropped := item :: s.dropped }
  | panic : Step env s { s with panicked := true }
  | mainExit : s.main = .recv → s.queueClosed = true → Step env s { s with main := .returned }
  | mainInc : s.main = .inc →
      Step env s { s with goCount := s.goCount + 1, accepted := s.site :: s.accepted,
                          main := .fetch }
  | fetchErr : s.main = .fetch → env.request s.site.link = none →
      Step env s { s with fetched := s.site :: s.fetched, main := .signal }
  | fetchOk (body : Node) : s.main = .fetch → env.request s.site.link = some body →
      Step env s { s with fetched := s.site :: s.fetched,
                          main := .links (searchLinks env.FindAll (env.FindAll ["a"] body) env.opt) }
  | linksDone : s.main = .links [] → Step env s { s with main := .signal }
  | linkSkip (link : String) (rest : List String) : s.main = .links (link :: rest) →
      Step env s { s with main := .links rest }
  | linkClaim (link : String) (rest : List String) (v : String) :
      s.main = .links (link :: rest) →
      resolveRef env.lib s.site.link link env.opt.Search.SameHost = .ret (v, none) →
      v ∉ s.visited →
      Step env s { s with main := .links rest, visited := v :: s.visited,
                          goCount := s.goCount + 1, spawned := v :: s.spawned,
                          claimed := v :: s.claimed }
  | mainSignal : s.main = .signal → s.term = .wait → s.stopClosed = false →
      Step env s { s with main := .recv, term := .dec, driverDone := s.site :: s.driverDone }
  | enqSignal (item : depthInfo) : item ∈ s.signalling → s.term = .wait →
      s.stopClosed = false →
      Step env s { s with signalling := s.signalling.erase item, term := .dec,
                          enqDone := item :: s.enqDone }
  | termDec : s.term = .dec →
      Step env s { s with goCount := s.goCount - 1,
                          term := if s.goCount - 1 = 0 then .closeQueue else .wait }
  | termCloseQueue : s.term = .closeQueue →
      Step env s { s with queueClosed := true, term := .closeStop }
  | termCloseStop : s.term = .closeStop →
      Step env s { s with stopClosed := true, term := .done }

/-! ## Invariants of the transition system -/

/-- While the seed goroutine has not delivered the seed, nothing else has happened. -/
def InvSeed (s : State) : Prop :=
  s.seedPending = true →
    s.main = .recv ∧ s.term = .wait ∧ s.accepted = [] ∧ s.claimed = [] ∧ s.driverDone = [] ∧
    s.enqDone = [] ∧ s.spawned = [] ∧ s.sending = [] ∧ s.signalling = [] ∧ s.placed = [] ∧
    s.goCount = 0 ∧ s.queueClosed = false

/-- The counter is the number of registrations minus the number of signals sent on
`stopCh`, plus one while a received signal is not yet decremented. -/
def InvCount (s : State) : Prop :=
  s.goCount =
    (s.accepted.length : Int) + s.claimed.length - s.driverDone.length - s.enqDone.length
      + (if s.term = .dec then 1 else 0)

/-- The driver has signalled once for every item it registered, except for the item it is
processing. -/
def InvDriver (s : State) : Prop :=
  s.accepted = if s.main.busy = true then s.site :: s.driverDone else s.driverDone

/-- Every claimed link is held by exactly one enqueuer: one not yet started on its send,
one blocked in the send on `queue`, one about to signal, or one that has signalled. -/
def InvEnq (s : State) : Prop :=
  List.Perm s.claimed
    (s.spawned ++ (s.sending ++ s.signalling ++ s.enqDone).map depthInfo.link)

/-- Once the decrement has returned 0: if `main` stands at the receive, no enqueuer and no
seed goroutine is left; `queue` is closed only then, `stopCh` only by the finished
termination goroutine, and `main` returns only on the closed `queue`. -/
def InvClose (s : State) : Prop :=
  (s.term.closing = true → (s.main = .recv ∨ s.main = .returned) →
    s.spawned = [] ∧ s.sending = [] ∧ s.signalling = [] ∧ s.seedPending = false) ∧
  (s.queueClosed = true → s.term.closing = true) ∧
  (s.stopClosed = true → s.term = .done) ∧
  (s.main = .returned → s.queueClosed = true)

/-- The visited set holds `args[0]` and every claimed link; no link is claimed twice and
`args[0]` is never claimed. -/
def InvVisited {URL : Type} (env : Env URL) (s : State) : Prop :=
  env.args0 ∈ s.visited ∧ (∀ u ∈ s.claimed, u ∈ s.visited) ∧ s.claimed.Nodup ∧
  env.args0 ∉ s.claimed

/-- The items received from `queue` are the seed item and the items of the enqueuers past
their send; a dropped item is one of the latter. -/
def InvPlaced {URL : Type} (env : Env URL) (s : State) : Prop :=
  List.Perm s.placed
    ((if s.seedPending = true then [] else [(⟨env.args0, 0⟩ : depthInfo)]) ++
      (s.signalling ++ s.enqDone)) ∧
  (∀ d ∈ s.dropped, d ∈ s.signalling ∨ d ∈ s.enqDone)

/-- The driver registers and fetches only items with `depth <= MaxDepth`, and drops only
items above it. -/
def InvDepth {URL : Type} (env : Env URL) (s : State) : Prop :=
  ((s.main = .inc ∨ s.main = .fetch) → s.site.depth ≤ env.opt.Search.MaxDepth) ∧
  (∀ d ∈ s.accepted, d.depth ≤ env.opt.Search.MaxDepth) ∧
  (∀ d ∈ s.fetched, d.depth ≤ env.opt.Search.MaxDepth) ∧
  (∀ d ∈ s.dropped, env.opt.Search.MaxDepth < d.depth)

/-- Every claimed link is a link that `resolveRef` returned with a nil error. -/
def InvResolved {URL : Type} (env : Env URL) (s : State) : Prop :=
  ∀ v ∈ s.claimed, ∃ uri link,
    resolveRef env.lib uri link env.opt.Search.SameHost = .ret (v, none)

/-- The logs are nested: what was fetched was registered by the driver, and what the
driver registered was received from `queue`. -/
def InvLog (s : State) : Prop :=
  (s.main = .inc → ∃ p, s.placed = s.site :: p ∧ s.accepted.Sublist p) ∧
  s.accepted.Sublist s.placed ∧
  s.fetched = (if s.main = .fetch then s.accepted.tail else s.accepted)

/-- All invariants of a run together. -/
structure Inv {URL : Type} (env : Env URL) (s : State) : Prop where
  seed : InvSeed s
  count : InvCount s
  driver : InvDriver s
  enq : InvEnq s
  close : InvClose s
  visited : InvVisited env s
  placed : InvPlaced env s
  depth : InvDepth env s
  resolved : InvResolved env s
  log : InvLog s

/-- While `main` is in the loop of `uriEnqueue`, the links still to handle are a tail
of the links of the page that `request(site.link)` returned. -/
def InvLinks {URL : Type} (env : Env URL) (s : State) : Prop :=
  ∀ rest, s.main = .links rest → ∃ body pre,
    env.request s.site.link = some body ∧
    pre ++ rest = searchLinks env.FindAll (env.FindAll ["a"] body) env.opt

/-- Every claimed link is in the list `U`. -/
def InvUniverse (U : List String) (s : State) : Prop :=
  ∀ v ∈ s.claimed, v ∈ U

/-- A finite document graph: every link that a page yields through `searchLinks` and
`resolveRef` is in the list `U`, and no page has more than `L` links. -/
def FiniteGraph {URL : Type} (env : Env URL) (U : List String) (L : Nat) : Prop :=
  (∀ uri body link v, env.request uri = some body →
    link ∈ searchLinks env.FindAll (env.FindAll ["a"] body) env.opt →
    resolveRef env.lib uri link env.opt.Search.SameHost = .ret (v, none) → v ∈ U) ∧
  (∀ uri body, env.request uri = some body →
    (searchLinks env.FindAll (env.FindAll ["a"] body) env.opt).length ≤ L)

/-- Strict execution: the state after the schedule when every operation of it was
enabled in turn, `none` otherwise. -/
def run? {URL : Type} (env : Env URL) : State → List Action → Option State
  | s, [] => some s
  | s, a :: rest =>
    match step? env s a with
    | none => none
    | some s1 => run? env s1 rest

/-- The number of operations the main goroutine can still perform for the item in hand,
with `L` the bound on the links of a page. -/
def MainPC.weight (L : Nat) : MainPC → Nat
  | .returned => 0
  | .recv => 1
  | .signal => 5
  | .links rest => 6 + rest.length
  | .fetch => 7 + L
  | .inc => 8 + L

/-- The number of operations the termination goroutine can still perform for the signal
in hand. -/
def TermPC.weight : TermPC → Nat
  | .wait => 0
  | .dec => 3
  | .closeQueue => 2
  | .closeStop => 1
  | .done => 0

/-- A bound on the number of operations still to come, for a graph with at most `N`
links to claim and at most `L` links on a page. -/
def potential (N L : Nat) (s : State) : Nat :=
  (L + 13) * (N - s.claimed.length) + (L + 13) * s.spawned.length
    + (L + 12) * s.sending.length + 4 * s.signalling.length
    + s.main.weight L + s.term.weight
    + (if s.seedPending = true then L + 8 else 0)
    + (if s.panicked = true then 0 else 1)

/-- What the termination goroutine has done in each of its positions, and what the
counter is while it waits: at least 1 once a signal has been decremented. -/
def InvProgress (s : State) : Prop :=
  (s.term = .done → s.stopClosed = true) ∧
  ((s.term = .closeStop ∨ s.term = .done) → s.queueClosed = true) ∧
  (s.term = .wait → 1 ≤ s.goCount ∨ (s.driverDone = [] ∧ s.enqDone = [])) ∧
  (s.seedPending = false → s.main = .recv → s.driverDone ≠ [])

/-- The item `p` yields the link `u`: the page that `request(p.link)` returns has a link
that `searchLinks` extracts and that `resolveRef` resolves against `p.link` to `u`. -/
def Yields {URL : Type} (env : Env URL) (p : depthInfo) (u : String) : Prop :=
  ∃ body link, env.request p.link = some body ∧
    link ∈ searchLinks env.FindAll (env.FindAll ["a"] body) env.opt ∧
    resolveRef env.lib p.link link env.opt.Search.SameHost = .ret (u, none)

/-- A schedule in which every enqueuer evaluates the operand of its send before `main`
receives the next item, so that it reads the `site` it was started under.  These are
the runs the program has when each iteration of the range loop has a `site` variable
of its own (the loop variables of Go 1.22), or when the closure is given a copy. -/
def eagerFrom {URL : Type} (env : Env URL) : State → List Action → Bool
  | _, [] => true
  | s, a :: rest =>
    (match a with
      | .recvItem _ => s.spawned.isEmpty
      | _ => true) && eagerFrom env (step env s a) rest

/-- Under eager evaluation every enqueuer carries a link that the fetched item it was
started under yields, with that item's depth plus one. -/
def InvChain {URL : Type} (env : Env URL) (s : State) : Prop :=
  (∀ u ∈ s.spawned, s.site ∈ s.fetched ∧ Yields env s.site u) ∧
  (∀ d ∈ s.sending ++ s.signalling ++ s.enqDone,
    ∃ p ∈ s.fetched, d.depth = p.depth + 1 ∧ Yields env p d.link)

/-! ## A test fixture: the site `a.test`

A small instance of the external libraries, used to evaluate the program on concrete
inputs.  `demoNormalize` and `demoParse` agree with `purell` (flags
`FlagsUnsafeGreedy`, which remove a trailing slash) and `net/url` on the strings the
fixture uses; `:` is a string `url.Parse` rejects ("missing protocol scheme"). -/

/-- A parsed URL of the fixture: host and path. -/
structure DemoURL where
  Host : String
  Path : String
deriving DecidableEq, Repr

/-- Normalisation on the fixture's strings: `:` is rejected, a trailing slash is removed. -/
def demoNormalize (u : String) : Option String :=
  if u = ":" then none
  else if u = "/" then some ""
  else if u = "http://a.test/" then some "http://a.test"
  else if u = "http://b.test/" then some "http://b.test"
  else some u

/-- Parsing on the fixture's strings: the absolute URLs of `a.test` and `b.test`, and
anything else as a path without a host. -/
def demoParse (u : String) : Except String DemoURL :=
  if u = "http://a.test" then .ok ⟨"a.test", ""⟩
  else if u = "http://a.test/b" then .ok ⟨"a.test", "/b"⟩
  else if u = "http://a.test/c" then .ok ⟨"a.test", "/c"⟩
  else if u = "http://b.test" then .ok ⟨"b.test", ""⟩
  else .ok ⟨"", u⟩

/-- Reference resolution: an absolute reference stands, an empty one gives the base, a
path replaces the path of the base. -/
def demoResolve (base ref : DemoURL) : DemoURL :=
  if ref.Host ≠ "" then ref
  else if ref.Path = "" then base
  else ⟨base.Host, ref.Path⟩

/-- The string form of a fixture URL. -/
def demoString (u : DemoURL) : String :=
  if u.Host = "" then u.Path else "http://" ++ u.Host ++ u.Path

/-- The fixture's URL library. -/
def demoLib : UrlLib DemoURL where
  NormalizeURLString := demoNormalize
  Parse := demoParse
  ResolveReference := demoResolve
  Hostname := fun u => u.Host
  URLString := demoString

/-- The fixture's finder: the children of a node whose tag is one of `tags`. -/
def demoFindAll (tags : List String) (n : Node) : List Node :=
  n.children.filter (fun c => decide (c.Data ∈ tags))

/-- An anchor element `<a href=...>` with the given children. -/
def anchor (href : String) (children : List Node) : Node :=
  .mk "a" [⟨"", "href", href⟩] children

/-- A document whose anchors carry the given hrefs. -/
def page (hrefs : List String) : Node :=
  .mk "html" [] (hrefs.map (fun h => anchor h []))

/-- The options of the fixture: `same_host: true`, no containment tags. -/
def demoOpt (maxDepth : Nat) : crawlOpt :=
  ⟨⟨maxDepth, true, []⟩, ⟨[], ""⟩⟩

/-- A run environment over the fixture: the seed, the depth bound, and the pages that
`request` returns (every other request fails). -/
def demoEnv (seed : String) (maxDepth : Nat) (pages : List (String × List String)) :
    Env DemoURL where
  args0 := seed
  opt := demoOpt maxDepth
  lib := demoLib
  FindAll := demoFindAll
  request := fun u => (pages.lookup u).map page

/-- The cycle A→B→A: `http://a.test` links to `/b`, which links back to `/`. -/
def cycleEnv : Env DemoURL :=
  demoEnv "http://a.test" 1 [("http://a.test", ["/b"]), ("http://a.test/b", ["/"])]

/-- The item of page B in the cycle. -/
def itemB : depthInfo := ⟨"http://a.test/b", 1⟩

/-- A schedule of `cycleEnv` up to the shutdown: the enqueuer of B hands B to `main`
and its signal is decremented before `main` reaches its `goCount.Increment()`. -/
def raceSched : List Action :=
  [.recvSeed, .mainInc, .mainFetch, .mainLink, .mainLink, .mainSignal, .termDec,
   .evalOperand "http://a.test/b", .recvItem itemB, .enqSignal itemB, .termDec,
   .termCloseQueue, .termCloseStop]

/-- The rest of that run: `main` processes B and sends on the closed `stopCh`. -/
def raceTail : List Action :=
  [.mainInc, .mainFetch, .mainLink, .mainLink, .panicStop]

/-- A schedule of `cycleEnv` in which `main` increments before the enqueuer signals. -/
def cycleCleanSched : List Action :=
  [.recvSeed, .mainInc, .mainFetch, .mainLink, .mainLink, .mainSignal, .termDec,
   .evalOperand "http://a.test/b", .recvItem itemB, .mainInc, .enqSignal itemB, .termDec,
   .mainFetch, .mainLink, .mainLink, .mainSignal, .termDec,
   .termCloseQueue, .termCloseStop, .mainExit]

/-- The same site with `depth: 0`: the item of B is dropped. -/
def shallowEnv : Env DemoURL :=
  demoEnv "http://a.test" 0 [("http://a.test", ["/b"]), ("http://a.test/b", ["/"])]

/-- A schedule of `shallowEnv` up to the moment the enqueuer of B is blocked in its send. -/
def shallowPrefix : List Action :=
  [.recvSeed, .mainInc, .mainFetch, .mainLink, .mainLink, .mainSignal, .termDec,
   .evalOperand "http://a.test/b"]

/-- A complete schedule of `shallowEnv`. -/
def shallowSched : List Action :=
  shallowPrefix ++ [.recvItem itemB, .enqSignal itemB, .termDec,
   .termCloseQueue, .termCloseStop, .mainExit]

/-- A page with a malformed href before a good one. -/
def malformedEnv : Env DemoURL :=
  demoEnv "http://a.test" 1 [("http://a.test", [":", "/b"])]

/-- The schedule of `malformedEnv` up to the first link of the seed page. -/
def malformedSched : List Action :=
  [.recvSeed, .mainInc, .mainFetch, .mainLink]

/-- A seed with a trailing slash, whose page links to itself as `/`. -/
def slashSeedEnv : Env DemoURL :=
  demoEnv "http://a.test/" 1 [("http://a.test/", ["/"]), ("http://a.test", ["/"])]

/-- A schedule of `slashSeedEnv` up to the second fetch. -/
def slashSeedSched : List Action :=
  [.recvSeed, .mainInc, .mainFetch, .mainLink, .mainLink, .mainSignal, .termDec,
   .evalOperand "http://a.test", .recvItem ⟨"http://a.test", 1⟩, .mainInc, .mainFetch]

/-- A seed page with two links, B and C, and `depth: 1`. -/
def fanEnv : Env DemoURL :=
  demoEnv "http://a.test" 1 [("http://a.test", ["/b", "/c"])]

/-- A schedule of `fanEnv` in which the enqueuer of C evaluates `site.depth + 1` only
after `main` has received B. -/
def fanSched : List Action :=
  [.recvSeed, .mainInc, .mainFetch, .mainLink, .mainLink, .mainLink, .mainSignal, .termDec,
   .evalOperand "http://a.test/b", .recvItem itemB,
   .evalOperand "http://a.test/c",
   .mainInc, .enqSignal itemB, .termDec, .mainFetch, .mainSignal, .termDec,
   .recvItem ⟨"http://a.test/c", 2⟩, .enqSignal ⟨"http://a.test/c", 2⟩, .termDec,
   .termCloseQueue, .termCloseStop, .mainExit]

/-- The same seed page with `depth: 0`. -/
def shallowFanEnv : Env DemoURL :=
  demoEnv "http://a.test" 0 [("http://a.test", ["/b", "/c"])]

/-- A schedule of `shallowFanEnv` in which the enqueuer of C evaluates `site.depth + 1`
after `main` has received and dropped B. -/
def shallowFanSched : List Action :=
  [.recvSeed, .mainInc, .mainFetch, .mainLink, .mainLink, .mainLink, .mainSignal, .termDec,
   .evalOperand "http://a.test/b", .recvItem itemB,
   .evalOperand "http://a.test/c", .recvItem ⟨"http://a.test/c", 2⟩]

/-- An anchor that contains an `img`, one that does not, and an element without href. -/
def imgElems : List Node :=
  [anchor "/with" [.mk "img" [] []], anchor "/without" [.mk "span" [] []],
   .mk "a" [⟨"", "name", "top"⟩] [.mk "img" [] []]]

/-- Options with `contains_tags: [img]`. -/
def imgOpt : crawlOpt :=
  ⟨⟨1, true, ["img"]⟩, ⟨[], ""⟩⟩

/-! ## Basic lemmas on the transition system -/

theorem linkHandle_of_mem (v : String) (s : State) (h : v ∈ s.visited) :
    linkHandle v s = s := by
  simp [linkHandle, VisitedSet.Has, h]

theorem linkHandle_of_not_mem (v : String) (s : State) (h : v ∉ s.visited) :
    linkHandle v s =
      { s with visited := v :: s.visited, goCount := s.goCount + 1,
               spawned := v :: s.spawned, claimed := v :: s.claimed } := by
  simp [linkHandle, VisitedSet.Has, VisitedSet.Add, AtomicInt.Increment, h]

/-- Every enabled operation is one of the transitions of `Step`, and it is taken while
`main` has not returned and nothing has panicked. -/
theorem step?_sound {URL : Type} (env : Env URL) (s s1 : State) (a : Action)
    (h : step? env s a = some s1) :
    Step env s s1 ∧ s.main ≠ .returned ∧ s.panicked = false := by
  unfold step? at h
  by_cases hrun : s.main = .returned ∨ s.panicked = true
  · rw [if_pos hrun] at h; exact absurd h (by simp)
  rw [if_neg hrun] at h
  have hrun2 : s.main ≠ .returned ∧ s.panicked = false := by
    constructor
    · intro hc; exact hrun (Or.inl hc)
    · cases hp : s.panicked
      · rfl
      · exact absurd (Or.inr hp) hrun
  refine ⟨?_, hrun2⟩
  cases a with
  | recvSeed =>
    simp only [perform] at h
    split_ifs at h with hc
    obtain ⟨h1, h2, h3⟩ := hc
    simp only [receive, Nat.zero_le, if_true, Option.some.injEq] at h
    subst h
    exact Step.recvSeed h1 h2 h3
  | evalOperand u =>
    simp only [perform] at h
    split_ifs at h with hc
    simp only [Option.some.injEq] at h
    subst h
    exact Step.evalOperand u hc
  | recvItem item =>
    simp only [perform] at h
    split_ifs at h with hc
    obtain ⟨h1, h2, h3⟩ := hc
    simp only [receive, Option.some.injEq] at h
    split_ifs at h with hd
    · subst h; exact Step.recvAccept item h1 h2 h3 hd
    · subst h; exact Step.recvDrop item h1 h2 h3 (Nat.lt_of_not_le hd)
  | panicQueue =>
    simp only [perform] at h
    split_ifs at h with hc
    simp only [Option.some.injEq] at h
    subst h
    exact Step.panic
  | mainExit =>
    simp only [perform] at h
    split_ifs at h with hc
    simp only [Option.some.injEq] at h
    subst h
    exact Step.mainExit hc.1 hc.2
  | mainInc =>
    simp only [perform] at h
    split_ifs at h with hc
    simp only [Option.some.injEq, AtomicInt.Increment] at h
    subst h
    exact Step.mainInc hc
  | mainFetch =>
    simp only [perform] at h
    split_ifs at h with hc
    split at h
    · rename_i hreq
      simp only [Option.some.injEq] at h
      subst h
      exact Step.fetchErr hc hreq
    · rename_i body hreq
      simp only [Option.some.injEq] at h
      subst h
      exact Step.fetchOk body hc hreq
  | mainLink =>
    simp only [perform] at h
    split at h
    · rename_i hm
      simp only [Option.some.injEq] at h
      subst h
      exact Step.linksDone hm
    · rename_i link rest hm
      cases hres : resolveRef env.lib s.site.link link env.opt.Search.SameHost with
      | panic =>
        simp only [enqueueLink, hres, Option.some.injEq] at h
        subst h
        exact Step.panic
      | ret p =>
        obtain ⟨v, err⟩ := p
        cases err with
        | some e =>
          simp only [enqueueLink, hres, Option.some.injEq] at h
          subst h
          exact Step.linkSkip link rest hm
        | none =>
          simp only [enqueueLink, hres, Option.some.injEq] at h
          by_cases hv : v ∈ s.visited
          · rw [linkHandle_of_mem v { s with main := .links rest } hv] at h
            subst h
            exact Step.linkSkip link rest hm
          · rw [linkHandle_of_not_mem v { s with main := .links rest } hv] at h
            subst h
            exact Step.linkClaim link rest v hm hres hv
    · simp at h
  | mainSignal =>
    simp only [perform] at h
    split_ifs at h with hc
    simp only [Option.some.injEq] at h
    subst h
    exact Step.mainSignal hc.1 hc.2.1 hc.2.2
  | enqSignal item =>
    simp only [perform] at h
    split_ifs at h with hc
    simp only [Option.some.injEq] at h
    subst h
    exact Step.enqSignal item hc.1 hc.2.1 hc.2.2
  | panicStop =>
    simp only [perform] at h
    split_ifs at h with hc
    simp only [Option.some.injEq] at h
    subst h
    exact Step.panic
  | termDec =>
    simp only [perform] at h
    by_cases hc : s.term = .dec
    · rw [if_pos hc] at h
      simp only [Option.some.injEq, AtomicInt.Decrement] at h
      subst h
      exact Step.termDec hc
    · rw [if_neg hc] at h
      exact absurd h (by simp)
  | termCloseQueue =>
    simp only [perform] at h
    split_ifs at h with hc
    simp only [Option.some.injEq] at h
    subst h
    exact Step.termCloseQueue hc
  | termCloseStop =>
    simp only [perform] at h
    split_ifs at h with hc
    simp only [Option.some.injEq] at h
    subst h
    exact Step.termCloseStop hc

/-- Induction over the schedule: a property of the initial state that every transition
preserves holds after every schedule. -/
theorem exec_induction {URL : Type} (env : Env URL) (P : State → Prop)
    (h0 : P (State.init env))
    (hstep : ∀ s s1, P s → Step env s s1 → P s1) :
    ∀ sched, P (exec env sched) := by
  have key : ∀ sched s, P s → P (execFrom env s sched) := by
    intro sched
    induction sched with
    | nil => intro s hs; exact hs
    | cons a rest ih =>
      intro s hs
      apply ih
      unfold step
      cases hst : step? env s a with
      | none => exact hs
      | some s1 => exact hstep s s1 hs (step?_sound env s s1 a hst).1
  intro sched
  exact key sched _ h0
/-! ## The invariants are preserved by every transition -/

theorem InvSeed_step {URL : Type} (env : Env URL) (s s1 : State) (h : InvSeed s)
    (hstep : Step env s s1) : InvSeed s1 := by
  unfold InvSeed at h ⊢
  cases hstep <;> (dsimp only; intro hsp; simp_all)

theorem InvCount_step {URL : Type} (env : Env URL) (s s1 : State) (h : InvCount s)
    (hstep : Step env s s1) : InvCount s1 := by
  unfold InvCount at h ⊢
  cases hstep with
  | termDec ht =>
    dsimp only
    rw [h, if_pos ht]
    have : (if (↑s.accepted.length + ↑s.claimed.length - ↑s.driverDone.length
        - ↑s.enqDone.length + 1 - 1 : Int) = 0 then TermPC.closeQueue else TermPC.wait)
        ≠ TermPC.dec := by
      split_ifs
      · simp
      · simp
    rw [if_neg this]
    omega
  | _ => dsimp only <;> (try exact h) <;> simp_all <;> (try split_ifs) <;> (try omega)

theorem InvDriver_step {URL : Type} (env : Env URL) (s s1 : State) (h : InvDriver s)
    (hstep : Step env s s1) : InvDriver s1 := by
  unfold InvDriver at h ⊢
  cases hstep <;> dsimp only <;> (try exact h) <;> simp_all [MainPC.busy]

theorem InvEnq_step {URL : Type} (env : Env URL) (s s1 : State) (h : InvEnq s)
    (hstep : Step env s s1) : InvEnq s1 := by
  unfold InvEnq at h ⊢
  cases hstep with
  | evalOperand u hu =>
    dsimp only
    refine h.trans ?_
    simp only [List.map_append, List.map_cons, List.cons_append]
    refine List.Perm.trans ?_ List.perm_middle.symm
    exact (List.perm_cons_erase hu).append_right _
  | recvAccept item h1 h2 h3 h4 =>
    dsimp only
    refine h.trans ?_
    refine List.Perm.append_left _ (List.Perm.map _ ?_)
    refine List.Perm.append_right _ ?_
    refine ((List.perm_cons_erase h2).append_right _).trans ?_
    simp only [List.cons_append]
    exact List.perm_middle.symm
  | recvDrop item h1 h2 h3 h4 =>
    dsimp only
    refine h.trans ?_
    refine List.Perm.append_left _ (List.Perm.map _ ?_)
    refine List.Perm.append_right _ ?_
    refine ((List.perm_cons_erase h2).append_right _).trans ?_
    simp only [List.cons_append]
    exact List.perm_middle.symm
  | linkClaim link rest v h1 h2 h3 =>
    dsimp only
    simp only [List.cons_append]
    exact List.Perm.cons v h
  | enqSignal item h1 h2 h3 =>
    dsimp only
    refine h.trans ?_
    refine List.Perm.append_left _ (List.Perm.map _ ?_)
    simp only [List.append_assoc]
    refine List.Perm.append_left _ ?_
    refine ((List.perm_cons_erase h1).append_right _).trans ?_
    simp only [List.cons_append]
    exact List.perm_middle.symm
  | _ => exact h

theorem InvClose_step {URL : Type} (env : Env URL) (s s1 : State)
    (hs : InvSeed s) (hc : InvCount s) (hd : InvDriver s) (he : InvEnq s) (h : InvClose s)
    (hstep : Step env s s1) : InvClose s1 := by
  obtain ⟨k1, k2, k3, k4⟩ := h
  cases hstep with
  | termDec ht =>
    refine ⟨?_, ?_, ?_, ?_⟩ <;> dsimp only
    · intro hcl hm
      have hz : s.goCount - 1 = 0 := by
        by_contra hne
        rw [if_neg hne] at hcl
        simp [TermPC.closing] at hcl
      have hb : s.main.busy = false := by
        rcases hm with hm | hm <;> simp [hm, MainPC.busy]
      unfold InvDriver at hd
      unfold InvCount at hc
      rw [hb] at hd
      simp only [Bool.false_eq_true, if_false] at hd
      rw [if_pos ht, hd] at hc
      have hl := he.length_eq
      simp only [List.length_append, List.length_map] at hl
      have h0 : s.spawned.length = 0 ∧ s.sending.length = 0 ∧ s.signalling.length = 0 := by
        omega
      refine ⟨List.length_eq_zero.mp h0.1, List.length_eq_zero.mp h0.2.1,
        List.length_eq_zero.mp h0.2.2, ?_⟩
      cases hsp : s.seedPending
      · rfl
      · have := (hs hsp).2.1
        rw [ht] at this
        cases this
    · intro hq
      have := k2 hq
      rw [ht] at this
      simp [TermPC.closing] at this
    · intro hq
      have := k3 hq
      rw [ht] at this
      cases this
    · exact k4
  | evalOperand u hu =>
    refine ⟨?_, k2, k3, k4⟩
    intro hcl hm
    have := k1 hcl hm
    rw [this.1] at hu
    simp at hu
  | recvDrop item h1 h2 h3 h4 =>
    refine ⟨?_, k2, k3, ?_⟩
    · intro hcl _
      have := k1 hcl (Or.inl h1)
      rw [this.2.1] at h2
      simp at h2
    · intro hm
      simp at hm
  | _ => refine ⟨?_, ?_, ?_, ?_⟩ <;> dsimp only <;> simp_all [TermPC.closing]

theorem InvVisited_step {URL : Type} (env : Env URL) (s s1 : State) (h : InvVisited env s)
    (hstep : Step env s s1) : InvVisited env s1 := by
  obtain ⟨k1, k2, k3, k4⟩ := h
  cases hstep with
  | linkClaim link rest v h1 h2 h3 =>
    refine ⟨?_, ?_, ?_, ?_⟩ <;> dsimp only
    · exact List.mem_cons_of_mem _ k1
    · intro u hu
      rcases List.mem_cons.mp hu with rfl | hu
      · exact List.mem_cons_self _ _
      · exact List.mem_cons_of_mem _ (k2 u hu)
    · exact List.nodup_cons.mpr ⟨fun hv => h3 (k2 v hv), k3⟩
    · intro hc
      rcases List.mem_cons.mp hc with rfl | hc
      · exact h3 k1
      · exact k4 hc
  | _ => exact ⟨k1, k2, k3, k4⟩

theorem InvPlaced_step {URL : Type} (env : Env URL) (s s1 : State) (h : InvPlaced env s)
    (hstep : Step env s s1) : InvPlaced env s1 := by
  obtain ⟨k1, k2⟩ := h
  cases hstep with
  | recvSeed h1 h2 h3 =>
    refine ⟨?_, k2⟩
    dsimp only
    rw [h2] at k1
    simp only [if_true, List.nil_append] at k1
    simp only [Bool.false_eq_true, if_false, List.singleton_append]
    exact List.Perm.cons _ k1
  | recvAccept item h1 h2 h3 h4 =>
    refine ⟨?_, ?_⟩ <;> dsimp only
    · simp only [List.cons_append]
      exact (List.Perm.cons item k1).trans List.perm_middle.symm
    · intro d hd
      rcases k2 d hd with h | h
      · exact Or.inl (List.mem_cons_of_mem _ h)
      · exact Or.inr h
  | recvDrop item h1 h2 h3 h4 =>
    refine ⟨?_, ?_⟩ <;> dsimp only
    · simp only [List.cons_append]
      exact (List.Perm.cons item k1).trans List.perm_middle.symm
    · intro d hd
      rcases List.mem_cons.mp hd with rfl | hd
      · exact Or.inl (List.mem_cons_self _ _)
      · rcases k2 d hd with h | h
        · exact Or.inl (List.mem_cons_of_mem _ h)
        · exact Or.inr h
  | enqSignal item h1 h2 h3 =>
    refine ⟨?_, ?_⟩ <;> dsimp only
    · refine k1.trans (List.Perm.append_left _ ?_)
      refine ((List.perm_cons_erase h1).append_right _).trans ?_
      simp only [List.cons_append]
      exact List.perm_middle.symm
    · intro d hd
      by_cases hdi : d = item
      · exact Or.inr (hdi ▸ List.mem_cons_self _ _)
      · rcases k2 d hd with h | h
        · exact Or.inl ((List.mem_erase_of_ne hdi).mpr h)
        · exact Or.inr (List.mem_cons_of_mem _ h)
  | _ => exact ⟨k1, k2⟩

theorem InvDepth_step {URL : Type} (env : Env URL) (s s1 : State) (h : InvDepth env s)
    (hstep : Step env s s1) : InvDepth env s1 := by
  obtain ⟨k1, k2, k3, k4⟩ := h
  cases hstep <;> refine ⟨?_, ?_, ?_, ?_⟩ <;> dsimp only <;> (try assumption) <;> simp_all

theorem InvResolved_step {URL : Type} (env : Env URL) (s s1 : State) (h : InvResolved env s)
    (hstep : Step env s s1) : InvResolved env s1 := by
  unfold InvResolved at h ⊢
  cases hstep with
  | linkClaim link rest v h1 h2 h3 =>
    dsimp only
    intro w hw
    rcases List.mem_cons.mp hw with rfl | hw
    · exact ⟨_, _, h2⟩
    · exact h w hw
  | _ => exact h

theorem InvLog_step {URL : Type} (env : Env URL) (s s1 : State) (hd : InvDriver s)
    (h : InvLog s) (hstep : Step env s s1) : InvLog s1 := by
  obtain ⟨k1, k2, k3⟩ := h
  unfold InvDriver at hd
  cases hstep with
  | recvSeed h1 h2 h3 =>
    refine ⟨fun _ => ⟨s.placed, rfl, k2⟩, List.Sublist.cons _ k2, ?_⟩
    simpa [h1] using k3
  | recvAccept item h1 h2 h3 h4 =>
    refine ⟨fun _ => ⟨s.placed, rfl, k2⟩, List.Sublist.cons _ k2, ?_⟩
    simpa [h1] using k3
  | recvDrop item h1 h2 h3 h4 =>
    refine ⟨fun hm => by simp at hm, List.Sublist.cons _ k2, ?_⟩
    simpa [h1] using k3
  | mainInc h1 =>
    obtain ⟨p, hp, hsub⟩ := k1 h1
    refine ⟨fun hm => by simp at hm, ?_, ?_⟩
    · dsimp only
      rw [hp]
      exact List.Sublist.cons₂ _ hsub
    · simpa [h1] using k3
  | fetchErr h1 h2 =>
    refine ⟨fun hm => by simp at hm, k2, ?_⟩
    have hacc : s.accepted = s.site :: s.driverDone := by simpa [h1, MainPC.busy] using hd
    simp [h1, hacc] at k3 ⊢
    exact k3
  | fetchOk body h1 h2 =>
    refine ⟨fun hm => by simp at hm, k2, ?_⟩
    have hacc : s.accepted = s.site :: s.driverDone := by simpa [h1, MainPC.busy] using hd
    simp [h1, hacc] at k3 ⊢
    exact k3
  | linksDone h1 =>
    refine ⟨fun hm => by simp at hm, k2, ?_⟩
    simpa [h1] using k3
  | linkSkip link rest h1 =>
    refine ⟨fun hm => by simp at hm, k2, ?_⟩
    simpa [h1] using k3
  | linkClaim link rest v h1 h2 h3 =>
    refine ⟨fun hm => by simp at hm, k2, ?_⟩
    simpa [h1] using k3
  | mainSignal h1 h2 h3 =>
    refine ⟨fun hm => by simp at hm, k2, ?_⟩
    simpa [h1] using k3
  | mainExit h1 h2 =>
    refine ⟨fun hm => by simp at hm, k2, ?_⟩
    simpa [h1] using k3
  | _ => exact ⟨k1, k2, k3⟩

theorem Inv_init {URL : Type} (env : Env URL) : Inv env (State.init env) := by
  constructor
  · intro _; simp [State.init]
  · simp [InvCount, State.init]
  · simp [InvDriver, State.init, MainPC.busy]
  · simp [InvEnq, State.init]
  · simp [InvClose, State.init, TermPC.closing]
  · simp [InvVisited, State.init, VisitedSet.Add]
  · simp [InvPlaced, State.init]
  · simp [InvDepth, State.init]
  · simp [InvResolved, State.init]
  · simp [InvLog, State.init]

theorem Inv_step {URL : Type} (env : Env URL) (s s1 : State) (h : Inv env s)
    (hstep : Step env s s1) : Inv env s1 :=
  { seed := InvSeed_step env s s1 h.seed hstep
    count := InvCount_step env s s1 h.count hstep
    driver := InvDriver_step env s s1 h.driver hstep
    enq := InvEnq_step env s s1 h.enq hstep
    close := InvClose_step env s s1 h.seed h.count h.driver h.enq h.close hstep
    visited := InvVisited_step env s s1 h.visited hstep
    placed := InvPlaced_step env s s1 h.placed hstep
    depth := InvDepth_step env s s1 h.depth hstep
    resolved := InvResolved_step env s s1 h.resolved hstep
    log := InvLog_step env s s1 h.driver h.log hstep }

/-- The invariants hold after every schedule. -/
theorem exec_inv {URL : Type} (env : Env URL) (sched : List Action) :
    Inv env (exec env sched) :=
  exec_induction env (Inv env) (Inv_init env) (Inv_step env) sched

/-! ## Consequences of the invariants -/

/-- No two items received from `queue` carry the same link, and an item with the link
`args[0]` is the seed item. -/
theorem placed_links_nodup {URL : Type} (env : Env URL) (s : State) (h : Inv env s) :
    (s.placed.map depthInfo.link).Nodup ∧
    (∀ d ∈ s.placed, d = ⟨env.args0, 0⟩ ∨ d.link ∈ s.claimed) ∧
    (∀ d ∈ s.placed, d.link = env.args0 → d = ⟨env.args0, 0⟩) := by
  obtain ⟨hv1, hv2, hv3, hv4⟩ := h.visited
  have hE : List.Perm s.claimed
      (s.spawned ++ (s.sending ++ s.signalling ++ s.enqDone).map depthInfo.link) := h.enq
  have hP := h.placed.1
  have hsub : ((s.signalling ++ s.enqDone).map depthInfo.link).Sublist
      (s.spawned ++ (s.sending ++ s.signalling ++ s.enqDone).map depthInfo.link) := by
    refine List.Sublist.trans ?_ (List.sublist_append_right _ _)
    refine List.Sublist.map _ ?_
    rw [List.append_assoc]
    exact List.sublist_append_right _ _
  have hnd : ((s.signalling ++ s.enqDone).map depthInfo.link).Nodup :=
    (hE.nodup_iff.mp hv3).sublist hsub
  have hmem : ∀ d ∈ s.signalling ++ s.enqDone, d.link ∈ s.claimed := by
    intro d hd
    exact hE.mem_iff.mpr (hsub.subset (List.mem_map_of_mem _ hd))
  have hseed : env.args0 ∉ (s.signalling ++ s.enqDone).map depthInfo.link := by
    intro hc
    obtain ⟨d, hd, hdl⟩ := List.mem_map.mp hc
    exact hv4 (hdl ▸ hmem d hd)
  have hor : ∀ d ∈ s.placed, d = ⟨env.args0, 0⟩ ∨ d.link ∈ s.claimed := by
    intro d hd
    have hd2 := hP.mem_iff.mp hd
    rcases List.mem_append.mp hd2 with h1 | h1
    · left
      by_cases hsp : s.seedPending = true
      · simp [hsp] at h1
      · simpa [hsp] using h1
    · exact Or.inr (hmem d h1)
  refine ⟨?_, hor, ?_⟩
  · refine ((hP.map depthInfo.link).nodup_iff).mpr ?_
    cases hsp : s.seedPending
    · simp only [Bool.false_eq_true, if_false, List.map_append, List.map_cons, List.map_nil,
        List.singleton_append, List.nodup_cons]
      exact ⟨by simpa using hseed, by simpa using hnd⟩
    · simpa using hnd
  · intro d hd hl
    rcases hor d hd with h1 | h1
    · exact h1
    · exact absurd (hl ▸ h1) hv4

/-- What a run that has returned looks like. -/
theorem quiescent_of_inv {URL : Type} (env : Env URL) (s : State) (h : Inv env s)
    (hq : s.main = .returned) :
    s.registers = s.completes ∧
    s.goCount = 0 ∧
    s.driverDone = s.accepted ∧
    (∀ d ∈ s.accepted, s.driverDone.count d = 1) ∧
    List.Perm (s.enqDone.map depthInfo.link) s.claimed ∧
    (s.spawned = [] ∧ s.sending = [] ∧ s.signalling = [] ∧ s.seedPending = false) ∧
    (∀ d ∈ s.dropped,
      env.opt.Search.MaxDepth < d.depth ∧
      s.claimed.count d.link = 1 ∧
      (s.enqDone.map depthInfo.link).count d.link = 1 ∧
      s.accepted.count d = 0 ∧ s.driverDone.count d = 0) := by
  obtain ⟨c1, c2, c3, c4⟩ := h.close
  have hcl := c2 (c4 hq)
  obtain ⟨e1, e2, e3, e4⟩ := c1 hcl (Or.inr hq)
  have hdrv : s.accepted = s.driverDone := by
    have := h.driver
    unfold InvDriver at this
    simpa [hq, MainPC.busy] using this
  have hperm : List.Perm (s.enqDone.map depthInfo.link) s.claimed := by
    have := h.enq
    unfold InvEnq at this
    simpa [e1, e2, e3] using this.symm
  obtain ⟨pn, _, _⟩ := placed_links_nodup env s h
  have haccnd : s.accepted.Nodup :=
    (List.Nodup.of_map _ pn).sublist h.log.2.1
  obtain ⟨hv1, hv2, hv3, hv4⟩ := h.visited
  obtain ⟨d1, d2, d3, d4⟩ := h.depth
  have hreg : s.registers = s.completes := by
    unfold State.registers State.completes
    rw [hdrv, ← hperm.length_eq, List.length_map]
  have hzero : s.goCount = 0 := by
    have hc := h.count
    unfold InvCount at hc
    have hnd : ¬ s.term = .dec := by
      intro hx
      rw [hx] at hcl
      simp [TermPC.closing] at hcl
    rw [if_neg hnd] at hc
    unfold State.registers State.completes at hreg
    omega
  refine ⟨hreg, hzero, hdrv.symm, ?_, hperm, ⟨e1, e2, e3, e4⟩, ?_⟩
  · intro d hd
    rw [← hdrv]
    exact List.count_eq_one_of_mem haccnd hd
  · intro d hd
    have hdE : d ∈ s.enqDone := by
      rcases h.placed.2 d hd with h1 | h1
      · rw [e3] at h1; simp at h1
      · exact h1
    have hlE : d.link ∈ s.enqDone.map depthInfo.link := List.mem_map_of_mem _ hdE
    have hnacc : d ∉ s.accepted := fun hc => absurd (d2 d hc) (Nat.not_le.mpr (d4 d hd))
    refine ⟨d4 d hd, ?_, ?_, ?_, ?_⟩
    · exact List.count_eq_one_of_mem hv3 (hperm.mem_iff.mp hlE)
    · exact List.count_eq_one_of_mem (hperm.nodup_iff.mpr hv3) hlE
    · exact List.count_eq_zero_of_not_mem hnacc
    · rw [← hdrv]; exact List.count_eq_zero_of_not_mem hnacc

/-- After the depth test has dropped an item, no operation of the range-loop body is
enabled before the next receive. -/
theorem body_disabled_at_recv {URL : Type} (env : Env URL) (s : State)
    (h : s.main = .recv) :
    step? env s .mainInc = none ∧ step? env s .mainFetch = none ∧
    step? env s .mainLink = none ∧ step? env s .mainSignal = none := by
  simp [step?, perform, h]

/-- What `resolveRef` has done when it returns a link with a nil error. -/
theorem resolveRef_ok_inv {URL : Type} (lib : UrlLib URL) (base ref v : String)
    (SameHost : Bool) (h : resolveRef lib base ref SameHost = .ret (v, none)) :
    ∃ nref refURL nbase baseURL,
      lib.NormalizeURLString ref = some nref ∧ lib.Parse nref = .ok refURL ∧
      lib.NormalizeURLString base = some nbase ∧ lib.Parse nbase = .ok baseURL ∧
      v = lib.URLString (lib.ResolveReference baseURL refURL) ∧
      lib.Hostname (lib.ResolveReference baseURL refURL) ≠ "" ∧
      (SameHost = true →
        lib.Hostname (lib.ResolveReference baseURL refURL) = lib.Hostname baseURL) := by
  unfold resolveRef MustNormalizeURLString at h
  cases hr : lib.NormalizeURLString ref with
  | none => simp [hr] at h
  | some nref =>
    cases hpr : lib.Parse nref with
    | error e => simp [hr, hpr] at h
    | ok refURL =>
      cases hb : lib.NormalizeURLString base with
      | none => simp [hr, hpr, hb] at h
      | some nbase =>
        cases hpb : lib.Parse nbase with
        | error e => simp [hr, hpr, hb, hpb] at h
        | ok baseURL =>
          simp only [hr, hpr, hb, hpb] at h
          refine ⟨nref, refURL, nbase, baseURL, rfl, hpr, rfl, hpb, ?_⟩
          split_ifs at h with h1 h2
          · simp at h
          · simp at h
          · simp only [Outcome.ret.injEq, Prod.mk.injEq, and_true] at h
            refine ⟨h.symm, ?_, ?_⟩
            · intro hc
              apply h1
              rw [hc]
              rfl
            · intro hsh
              by_contra hne
              apply h2
              simp [hsh, hne]

/-- With the handler that records its argument, every recorded link is one that
`resolveRef` returned with a nil error for a link of the list. -/
theorem enqueueLinks_log {URL : Type} (lib : UrlLib URL) (uri : String) (opt : crawlOpt)
    (links : List String) :
    ∀ log0 log : List String,
      enqueueLinks lib uri opt (fun v l => v :: l) links log0 = .ret log →
      ∀ v ∈ log, v ∈ log0 ∨
        ∃ link ∈ links, resolveRef lib uri link opt.Search.SameHost = .ret (v, none) := by
  induction links with
  | nil =>
    intro log0 log h v hv
    simp only [enqueueLinks, Outcome.ret.injEq] at h
    exact Or.inl (h ▸ hv)
  | cons link rest ih =>
    intro log0 log h v hv
    unfold enqueueLinks at h
    cases hres : resolveRef lib uri link opt.Search.SameHost with
    | panic => simp [enqueueLink, hres] at h
    | ret p =>
      obtain ⟨w, err⟩ := p
      cases err with
      | some e =>
        simp only [enqueueLink, hres] at h
        rcases ih log0 log h v hv with h1 | ⟨l, hl, hr⟩
        · exact Or.inl h1
        · exact Or.inr ⟨l, List.mem_cons_of_mem _ hl, hr⟩
      | none =>
        simp only [enqueueLink, hres] at h
        rcases ih (w :: log0) log h v hv with h1 | ⟨l, hl, hr⟩
        · rcases List.mem_cons.mp h1 with rfl | h2
          · exact Or.inr ⟨link, List.mem_cons_self _ _, hres⟩
          · exact Or.inl h2
        · exact Or.inr ⟨l, List.mem_cons_of_mem _ hl, hr⟩

/-! ## Lemmas on `searchLinks` and on finished runs -/

theorem appendHrefs_eq (links : List String) (attrs : List Attribute) :
    appendHrefs links attrs =
      links ++ (attrs.filter (fun attr => attr.Key = "href")).map (fun attr => attr.Val) := by
  unfold appendHrefs
  induction attrs generalizing links with
  | nil => simp
  | cons a rest ih =>
    simp only [List.foldl_cons]
    rw [ih]
    by_cases hk : a.Key = "href"
    · simp [hk, List.filter_cons]
    · simp [hk, List.filter_cons]

theorem searchLinks_foldl (FindAll : List String → Node → List Node) (opt : crawlOpt)
    (elems : List Node) (acc : List String) :
    elems.foldl
      (fun links elem =>
        if opt.Search.ContainsTags.length > 0 &&
            (FindAll opt.Search.ContainsTags elem).length == 0 then links
        else appendHrefs links elem.Attr)
      acc = acc ++ searchLinksSpec FindAll elems opt := by
  induction elems generalizing acc with
  | nil => simp [searchLinksSpec]
  | cons e rest ih =>
    simp only [List.foldl_cons]
    rw [ih]
    have hspec : searchLinksSpec FindAll (e :: rest) opt =
        (if passesContainment FindAll opt e = true then hrefsOf e else []) ++
          searchLinksSpec FindAll rest opt := by
      unfold searchLinksSpec
      by_cases hp : passesContainment FindAll opt e = true
      · simp [List.filter_cons, hp]
      · simp [List.filter_cons, hp]
    rw [hspec]
    by_cases hp : passesContainment FindAll opt e = true
    · have hc : (opt.Search.ContainsTags.length > 0 &&
          (FindAll opt.Search.ContainsTags e).length == 0) = false := by
        unfold passesContainment at hp
        cases h1 : opt.Search.ContainsTags <;> cases h2 : FindAll opt.Search.ContainsTags e <;>
          simp_all
      rw [hc, if_pos hp]
      simp [appendHrefs_eq, hrefsOf]
    · have hc : (opt.Search.ContainsTags.length > 0 &&
          (FindAll opt.Search.ContainsTags e).length == 0) = true := by
        unfold passesContainment at hp
        cases h1 : opt.Search.ContainsTags <;> cases h2 : FindAll opt.Search.ContainsTags e <;>
          simp_all
      rw [hc, if_neg hp]
      simp

theorem step_of_panicked {URL : Type} (env : Env URL) (s : State) (a : Action)
    (h : s.panicked = true) : step env s a = s := by
  simp [step, step?, h]

theorem execFrom_of_panicked {URL : Type} (env : Env URL) (sched : List Action) :
    ∀ s : State, s.panicked = true → execFrom env s sched = s := by
  induction sched with
  | nil => intro s _; rfl
  | cons a rest ih =>
    intro s h
    simp only [execFrom]
    rw [step_of_panicked env s a h]
    exact ih s h

theorem execFrom_append {URL : Type} (env : Env URL) (xs ys : List Action) :
    ∀ s : State, execFrom env s (xs ++ ys) = execFrom env (execFrom env s xs) ys := by
  induction xs with
  | nil => intro s; rfl
  | cons a rest ih =>
    intro s
    simp only [List.cons_append, execFrom]
    exact ih _

/-! ## Every run is finite, and fetches each link at most once -/

/-- No link is fetched twice. -/
theorem fetched_links_nodup {URL : Type} (env : Env URL) (sched : List Action) :
    ((exec env sched).fetched.map depthInfo.link).Nodup := by
  have h := exec_inv env sched
  obtain ⟨pn, _, _⟩ := placed_links_nodup env _ h
  obtain ⟨_, k2, k3⟩ := h.log
  have hacc : ((exec env sched).accepted.map depthInfo.link).Nodup :=
    pn.sublist (List.Sublist.map _ k2)
  rw [k3]
  split_ifs
  · exact hacc.sublist (List.Sublist.map _ (List.tail_sublist _))
  · exact hacc

theorem InvLinks_step {URL : Type} (env : Env URL) (s s1 : State) (h : InvLinks env s)
    (hstep : Step env s s1) : InvLinks env s1 := by
  unfold InvLinks at h ⊢
  cases hstep with
  | fetchOk body h1 h2 =>
    dsimp only
    intro rest hr
    simp only [MainPC.links.injEq] at hr
    exact ⟨body, [], h2, by simp [hr]⟩
  | linkSkip link rest h1 =>
    dsimp only
    intro rest2 hr
    simp only [MainPC.links.injEq] at hr
    subst hr
    obtain ⟨body, pre, hb, hp⟩ := h _ h1
    exact ⟨body, pre ++ [link], hb, by simpa using hp⟩
  | linkClaim link rest v h1 h2 h3 =>
    dsimp only
    intro rest2 hr
    simp only [MainPC.links.injEq] at hr
    subst hr
    obtain ⟨body, pre, hb, hp⟩ := h _ h1
    exact ⟨body, pre ++ [link], hb, by simpa using hp⟩
  | _ => dsimp only <;> intro rest hr <;> first | exact h rest hr | simp_all

theorem InvUniverse_step {URL : Type} (env : Env URL) (U : List String) (L : Nat)
    (hG : FiniteGraph env U L) (s s1 : State) (hl : InvLinks env s) (h : InvUniverse U s)
    (hstep : Step env s s1) : InvUniverse U s1 := by
  unfold InvUniverse at h ⊢
  cases hstep with
  | linkClaim link rest v h1 h2 h3 =>
    dsimp only
    intro w hw
    rcases List.mem_cons.mp hw with rfl | hw
    · obtain ⟨body, pre, hb, hp⟩ := hl _ h1
      refine hG.1 s.site.link body link w hb ?_ h2
      rw [← hp]
      simp
    · exact h w hw
  | _ => exact h

/-- Every transition of a running program lowers the potential. -/
theorem potential_decreases {URL : Type} (env : Env URL) (U : List String) (L : Nat)
    (hG : FiniteGraph env U L) (s s1 : State) (hi : Inv env s) (hl : InvLinks env s)
    (hu : InvUniverse U s) (hp : s.panicked = false) (hstep : Step env s s1) :
    potential U.length L s1 < potential U.length L s := by
  unfold potential
  cases hstep with
  | recvSeed h1 h2 h3 =>
    simp only [h1, h2, hp, MainPC.weight, if_true, Bool.false_eq_true, if_false]
    omega
  | evalOperand u hu2 =>
    have := List.length_erase_of_mem hu2
    have hpos : 0 < s.spawned.length := List.length_pos_of_mem hu2
    simp only [List.length_cons, this]
    have e1 : (L + 13) * s.spawned.length = (L + 13) * (s.spawned.length - 1) + (L + 13) := by
      rw [← Nat.mul_succ]; congr 1; omega
    have e2 : (L + 12) * (s.sending.length + 1) = (L + 12) * s.sending.length + (L + 12) := by
      ring
    rw [e1, e2]
    omega
  | recvAccept item h1 h2 h3 h4 =>
    have := List.length_erase_of_mem h2
    have hpos : 0 < s.sending.length := List.length_pos_of_mem h2
    simp only [List.length_cons, this, h1, MainPC.weight]
    have e1 : (L + 12) * s.sending.length = (L + 12) * (s.sending.length - 1) + (L + 12) := by
      rw [← Nat.mul_succ]; congr 1; omega
    rw [e1]
    omega
  | recvDrop item h1 h2 h3 h4 =>
    have := List.length_erase_of_mem h2
    have hpos : 0 < s.sending.length := List.length_pos_of_mem h2
    simp only [List.length_cons, this, h1, MainPC.weight]
    have e1 : (L + 12) * s.sending.length = (L + 12) * (s.sending.length - 1) + (L + 12) := by
      rw [← Nat.mul_succ]; congr 1; omega
    rw [e1]
    omega
  | panic => simp [hp]
  | mainExit h1 h2 => simp [h1, MainPC.weight]
  | mainInc h1 => simp [h1, MainPC.weight]
  | fetchErr h1 h2 =>
    simp only [h1, MainPC.weight]
    omega
  | fetchOk body h1 h2 =>
    have := hG.2 _ body h2
    simp only [h1, MainPC.weight]
    omega
  | linksDone h1 => simp [h1, MainPC.weight]
  | linkSkip link rest h1 => simp [h1, MainPC.weight]
  | linkClaim link rest v h1 h2 h3 =>
    obtain ⟨body, pre, hb, hpre⟩ := hl _ h1
    have hvU : v ∈ U := by
      refine hG.1 s.site.link body link v hb ?_ h2
      rw [← hpre]
      simp
    obtain ⟨_, v2, v3, _⟩ := hi.visited
    have hnd : (v :: s.claimed).Nodup := List.nodup_cons.mpr ⟨fun hc => h3 (v2 v hc), v3⟩
    have hsub : (v :: s.claimed) ⊆ U := by
      intro w hw
      rcases List.mem_cons.mp hw with rfl | hw
      · exact hvU
      · exact hu w hw
    have hlen : (v :: s.claimed).length ≤ U.length :=
      (List.subperm_of_subset hnd hsub).length_le
    simp only [List.length_cons] at hlen
    simp only [List.length_cons, h1, MainPC.weight]
    have e1 : (L + 13) * (U.length - s.claimed.length) =
        (L + 13) * (U.length - (s.claimed.length + 1)) + (L + 13) := by
      rw [← Nat.mul_succ]; congr 1; omega
    have e2 : (L + 13) * (s.spawned.length + 1) = (L + 13) * s.spawned.length + (L + 13) := by
      ring
    rw [e1, e2]
    omega
  | mainSignal h1 h2 h3 => simp [h1, h2, MainPC.weight, TermPC.weight]
  | enqSignal item h1 h2 h3 =>
    have := List.length_erase_of_mem h1
    have hpos : 0 < s.signalling.length := List.length_pos_of_mem h1
    simp only [this, h2, TermPC.weight]
    omega
  | termDec h1 =>
    simp only [h1, TermPC.weight]
    split_ifs <;> simp [TermPC.weight]
  | termCloseQueue h1 => simp [h1, TermPC.weight]
  | termCloseStop h1 => simp [h1, TermPC.weight]

theorem run?_execFrom {URL : Type} (env : Env URL) (sched : List Action) :
    ∀ s0 s : State, run? env s0 sched = some s → execFrom env s0 sched = s := by
  induction sched with
  | nil =>
    intro s0 s h
    simp only [run?, Option.some.injEq] at h
    exact h
  | cons a rest ih =>
    intro s0 s h
    simp only [run?] at h
    cases hs : step? env s0 a with
    | none => simp [hs] at h
    | some s1 =>
      simp only [hs] at h
      simp only [execFrom, step, hs, Option.getD_some]
      exact ih s1 s h

theorem run?_bound {URL : Type} (env : Env URL) (U : List String) (L : Nat)
    (hG : FiniteGraph env U L) (sched : List Action) :
    ∀ s0 s : State, Inv env s0 → InvLinks env s0 → InvUniverse U s0 →
      run? env s0 sched = some s →
      sched.length + potential U.length L s ≤ potential U.length L s0 := by
  induction sched with
  | nil =>
    intro s0 s _ _ _ h
    simp only [run?, Option.some.injEq] at h
    subst h
    simp
  | cons a rest ih =>
    intro s0 s hi hl hu h
    simp only [run?] at h
    cases hs : step? env s0 a with
    | none => simp [hs] at h
    | some s1 =>
      simp only [hs] at h
      obtain ⟨hstep, _, hp⟩ := step?_sound env s0 s1 a hs
      have hdec := potential_decreases env U L hG s0 s1 hi hl hu hp hstep
      have hrec := ih s1 s (Inv_step env s0 s1 hi hstep) (InvLinks_step env s0 s1 hl hstep)
        (InvUniverse_step env U L hG s0 s1 hl hu hstep) h
      simp only [List.length_cons]
      omega

/-- Termination: over a finite document graph (at most `U.length` links to discover, at
most `L` links on a page) no run of `main` has more than
`(L + 13) * U.length + L + 10` operations.  In particular a cycle in the graph cannot
make the traversal loop for ever. -/
theorem every_run_is_finite {URL : Type} (env : Env URL) (U : List String) (L : Nat)
    (hG : FiniteGraph env U L) (sched : List Action) (s : State)
    (h : run? env (State.init env) sched = some s) :
    sched.length ≤ (L + 13) * U.length + L + 10 := by
  have hb := run?_bound env U L hG sched (State.init env) s (Inv_init env)
    (by intro rest hr; simp [State.init] at hr) (by intro v hv; simp [State.init] at hv) h
  have h0 : potential U.length L (State.init env) = (L + 13) * U.length + L + 10 := by
    simp [potential, State.init, MainPC.weight, TermPC.weight]
    omega
  omega

theorem InvProgress_step {URL : Type} (env : Env URL) (s s1 : State)
    (hc : InvCount s) (hd : InvDriver s) (he : InvEnq s) (h : InvProgress s)
    (hstep : Step env s s1) : InvProgress s1 := by
  obtain ⟨k1, k2, k3, k4⟩ := h
  have hnn : (s.driverDone.length : Int) ≤ s.accepted.length ∧
      (s.enqDone.length : Int) ≤ s.claimed.length := by
    unfold InvDriver at hd
    have hl := he.length_eq
    simp only [List.length_append, List.length_map] at hl
    constructor
    · rw [hd]
      split_ifs <;> simp
    · omega
  unfold InvCount at hc
  cases hstep with
  | termDec ht =>
    refine ⟨?_, ?_, ?_, ?_⟩ <;> dsimp only
    · intro hx
      split_ifs at hx
    · intro hx
      split_ifs at hx <;> simp at hx
    · intro hx
      left
      rw [if_pos ht] at hc
      split_ifs at hx with hz
      omega
    · exact k4
  | mainInc h1 =>
    refine ⟨k1, k2, ?_, ?_⟩ <;> dsimp only
    · intro hx
      left
      have hw : ¬ s.term = TermPC.dec := by rw [hx]; simp
      rw [if_neg hw] at hc
      omega
    · intro _ hm
      simp at hm
  | linkClaim link rest v h1 h2 h3 =>
    refine ⟨k1, k2, ?_, ?_⟩ <;> dsimp only
    · intro hx
      left
      have hw : ¬ s.term = TermPC.dec := by rw [hx]; simp
      rw [if_neg hw] at hc
      omega
    · intro _ hm
      simp at hm
  | _ => refine ⟨?_, ?_, ?_, ?_⟩ <;> dsimp only <;> simp_all

/-- The extra invariant holds after every schedule. -/
theorem exec_progress_inv {URL : Type} (env : Env URL) (sched : List Action) :
    Inv env (exec env sched) ∧ InvProgress (exec env sched) := by
  refine exec_induction env (fun s => Inv env s ∧ InvProgress s) ?_ ?_ sched
  · exact ⟨Inv_init env, by simp [InvProgress, State.init]⟩
  · intro s s1 h hstep
    exact ⟨Inv_step env s s1 h.1 hstep,
      InvProgress_step env s s1 h.1.count h.1.driver h.1.enq h.2 hstep⟩

/-- No deadlock: while `main` has not returned and nothing has panicked, some operation
is enabled. -/
theorem some_operation_enabled {URL : Type} (env : Env URL) (sched : List Action)
    (hm : (exec env sched).main ≠ .returned) (hp : (exec env sched).panicked = false) :
    ∃ a, (step? env (exec env sched) a).isSome = true := by
  obtain ⟨hi, g1, g2, g3, g4⟩ := exec_progress_inv env sched
  generalize exec env sched = s at *
  obtain ⟨c1, c2, c3, c4⟩ := hi.close
  have hstep : ∀ a, step? env s a = perform env s a := by
    intro a
    unfold step?
    rw [if_neg]
    rintro (h | h)
    · exact hm h
    · rw [hp] at h; cases h
  have hterm : s.term = .dec ∨ s.term = .closeQueue ∨ s.term = .closeStop →
      ∃ a, (step? env s a).isSome = true := by
    rintro (h | h | h)
    · exact ⟨.termDec, by simp [hstep, perform, h]⟩
    · exact ⟨.termCloseQueue, by simp [hstep, perform, h]⟩
    · exact ⟨.termCloseStop, by simp [hstep, perform, h]⟩
  cases hmain : s.main with
  | returned => exact absurd hmain hm
  | inc => exact ⟨.mainInc, by simp [hstep, perform, hmain]⟩
  | fetch =>
    refine ⟨.mainFetch, ?_⟩
    cases hreq : env.request s.site.link <;> simp [hstep, perform, hmain, hreq]
  | links rest =>
    refine ⟨.mainLink, ?_⟩
    cases rest with
    | nil => simp [hstep, perform, hmain]
    | cons link rest =>
      simp only [hstep, perform, hmain]
      split <;> rfl
  | signal =>
    cases ht : s.term with
    | wait =>
      have hsc : s.stopClosed = false := by
        cases hsc : s.stopClosed
        · rfl
        · have := c3 hsc
          rw [ht] at this
          cases this
      exact ⟨.mainSignal, by simp [hstep, perform, hmain, ht, hsc]⟩
    | dec => exact hterm (Or.inl ht)
    | closeQueue => exact hterm (Or.inr (Or.inl ht))
    | closeStop => exact hterm (Or.inr (Or.inr ht))
    | done => exact ⟨.panicStop, by simp [hstep, perform, hmain, g1 ht]⟩
  | recv =>
    cases ht : s.term with
    | dec => exact hterm (Or.inl ht)
    | closeQueue => exact hterm (Or.inr (Or.inl ht))
    | closeStop => exact hterm (Or.inr (Or.inr ht))
    | done => exact ⟨.mainExit, by simp [hstep, perform, hmain, g2 (Or.inr ht)]⟩
    | wait =>
      have hqc : s.queueClosed = false := by
        cases hqc : s.queueClosed
        · rfl
        · have := c2 hqc
          rw [ht] at this
          simp [TermPC.closing] at this
      have hsc : s.stopClosed = false := by
        cases hsc : s.stopClosed
        · rfl
        · have := c3 hsc
          rw [ht] at this
          cases this
      cases hseed : s.seedPending with
      | true => exact ⟨.recvSeed, by simp [hstep, perform, hmain, hseed, hqc]⟩
      | false =>
        cases hsend : s.sending with
        | cons item rest =>
          refine ⟨.recvItem item, ?_⟩
          simp [hstep, perform, hmain, hsend, hqc]
        | nil =>
          cases hspawn : s.spawned with
          | cons u rest =>
            exact ⟨.evalOperand u, by simp [hstep, perform, hspawn]⟩
          | nil =>
            cases hsig : s.signalling with
            | cons item rest =>
              exact ⟨.enqSignal item, by simp [hstep, perform, hsig, ht, hsc]⟩
            | nil =>
              exfalso
              have hcount := hi.count
              have hdrv := hi.driver
              have hlen := hi.enq.length_eq
              unfold InvCount at hcount
              unfold InvDriver at hdrv
              simp only [hmain, MainPC.busy, Bool.false_eq_true, if_false] at hdrv
              simp only [hsend, hspawn, hsig, List.length_append, List.length_map,
                List.length_nil, List.nil_append, Nat.zero_add] at hlen
              rw [ht] at hcount
              simp only [reduceCtorEq, if_false] at hcount
              rw [hdrv] at hcount
              have hne := g4 hseed hmain
              rcases g3 ht with h1 | ⟨h1, _⟩
              · omega
              · exact hne h1

/-- The counter is never negative. -/
theorem goCount_nonneg {URL : Type} (env : Env URL) (sched : List Action) :
    0 ≤ (exec env sched).goCount := by
  have h := exec_inv env sched
  have hc := h.count
  have hd := h.driver
  have hl := h.enq.length_eq
  unfold InvCount at hc
  unfold InvDriver at hd
  simp only [List.length_append, List.length_map] at hl
  have hda : (exec env sched).driverDone.length ≤ (exec env sched).accepted.length := by
    rw [hd]
    split_ifs <;> simp
  rw [hc]
  split_ifs <;> omega

theorem doomed_step {URL : Type} (env : Env URL) (s s1 : State)
    (h : s.term.closing = true ∧ s.main ≠ .recv ∧ s.main ≠ .returned)
    (hstep : Step env s s1) :
    s1.term.closing = true ∧ s1.main ≠ .recv ∧ s1.main ≠ .returned := by
  obtain ⟨h1, h2, h3⟩ := h
  cases hstep <;> (dsimp only; simp_all [TermPC.closing])

/-- An early shutdown is fatal: once the decrement has returned 0 while `main` holds an
item it has not finished (it stands anywhere but at the receive), `main` never returns,
whatever the schedule does next. -/
theorem early_shutdown_never_returns {URL : Type} (env : Env URL) (more : List Action) :
    ∀ s : State, s.term.closing = true ∧ s.main ≠ .recv ∧ s.main ≠ .returned →
      (execFrom env s more).term.closing = true ∧ (execFrom env s more).main ≠ .recv ∧
        (execFrom env s more).main ≠ .returned := by
  induction more with
  | nil => intro s h; exact h
  | cons a rest ih =>
    intro s h
    simp only [execFrom]
    apply ih
    unfold step
    cases hs : step? env s a with
    | none => exact h
    | some s1 => exact doomed_step env s s1 h (step?_sound env s s1 a hs).1

/-! ## The loop of `uriEnqueue` and the operations `mainFetch`, `mainLink` -/

theorem linkHandle_frame (v : String) (s : State) (m : MainPC) (fl : List depthInfo) :
    linkHandle v { s with main := m, fetched := fl } =
      { linkHandle v s with main := m, fetched := fl } := by
  by_cases hv : v ∈ s.visited
  · simp [linkHandle, VisitedSet.Has, hv]
  · simp [linkHandle, VisitedSet.Has, VisitedSet.Add, AtomicInt.Increment, hv]

theorem linkHandle_keeps (v : String) (s : State) :
    (linkHandle v s).site = s.site ∧ (linkHandle v s).panicked = s.panicked ∧
    (linkHandle v s).main = s.main ∧ (linkHandle v s).fetched = s.fetched := by
  by_cases hv : v ∈ s.visited
  · rw [linkHandle_of_mem v s hv]
    exact ⟨rfl, rfl, rfl, rfl⟩
  · rw [linkHandle_of_not_mem v s hv]
    exact ⟨rfl, rfl, rfl, rfl⟩

theorem enqueueLinks_frame {URL : Type} (lib : UrlLib URL) (uri : String) (opt : crawlOpt)
    (m : MainPC) (fl : List depthInfo) (ls : List String) :
    ∀ s t : State, enqueueLinks lib uri opt linkHandle ls s = .ret t →
      enqueueLinks lib uri opt linkHandle ls { s with main := m, fetched := fl } =
        .ret { t with main := m, fetched := fl } ∧
      t.site = s.site ∧ t.panicked = s.panicked ∧ t.fetched = s.fetched := by
  induction ls with
  | nil =>
    intro s t h
    simp only [enqueueLinks, Outcome.ret.injEq] at h
    subst h
    exact ⟨rfl, rfl, rfl, rfl⟩
  | cons l rest ih =>
    intro s t h
    unfold enqueueLinks at h ⊢
    cases hres : resolveRef lib uri l opt.Search.SameHost with
    | panic => simp [enqueueLink, hres] at h
    | ret p =>
      obtain ⟨v, err⟩ := p
      cases err with
      | some e =>
        simp only [enqueueLink, hres] at h ⊢
        exact ih s t h
      | none =>
        simp only [enqueueLink, hres] at h ⊢
        rw [linkHandle_frame]
        obtain ⟨k1, k2, k3, k4⟩ := ih (linkHandle v s) t h
        obtain ⟨l1, l2, _, l4⟩ := linkHandle_keeps v s
        exact ⟨k1, k2.trans l1, k3.trans l2, k4.trans l4⟩

/-- Run without interleaving, the `mainLink` operations compute the loop of
`uriEnqueue` with the handler `linkHandle`. -/
theorem mainLink_steps {URL : Type} (env : Env URL) (ls : List String) :
    ∀ s t : State, s.main = .links ls → s.panicked = false →
      enqueueLinks env.lib s.site.link env.opt linkHandle ls s = .ret t →
      execFrom env s (List.replicate (ls.length + 1) .mainLink) =
        { t with main := .signal } := by
  induction ls with
  | nil =>
    intro s t hm hp h
    simp only [enqueueLinks, Outcome.ret.injEq] at h
    subst h
    simp [execFrom, step, step?, perform, hm, hp]
  | cons l rest ih =>
    intro s t hm hp h
    unfold enqueueLinks at h
    cases hl : enqueueLink env.lib s.site.link env.opt linkHandle l s with
    | panic => simp [hl] at h
    | ret s1 =>
      simp only [hl] at h
      have hs1 : enqueueLink env.lib s.site.link env.opt linkHandle l
          { s with main := .links rest } = .ret { s1 with main := .links rest } ∧
          s1.site = s.site ∧ s1.panicked = s.panicked := by
        unfold enqueueLink at hl ⊢
        cases hres : resolveRef env.lib s.site.link l env.opt.Search.SameHost with
        | panic => simp [hres] at hl
        | ret p =>
          obtain ⟨v, err⟩ := p
          cases err with
          | some e =>
            simp only [hres, Outcome.ret.injEq] at hl ⊢
            subst hl
            exact ⟨rfl, rfl, rfl⟩
          | none =>
            simp only [hres, Outcome.ret.injEq] at hl ⊢
            subst hl
            obtain ⟨l1, l2, _, _⟩ := linkHandle_keeps v s
            refine ⟨?_, l1, l2⟩
            by_cases hv : v ∈ s.visited
            · simp [linkHandle, VisitedSet.Has, hv]
            · simp [linkHandle, VisitedSet.Has, VisitedSet.Add, AtomicInt.Increment, hv]
      obtain ⟨e1, e2, e3⟩ := hs1
      have hstep : step env s .mainLink = { s1 with main := .links rest } := by
        unfold step step?
        rw [if_neg (by simp [hm, hp])]
        simp only [perform, hm, e1, Option.getD_some]
      simp only [List.length_cons, List.replicate_succ, execFrom]
      rw [hstep]
      obtain ⟨hf, _, _, f4⟩ := enqueueLinks_frame env.lib s.site.link env.opt (.links rest)
        t.fetched rest s1 t h
      have hst : ({ s1 with main := .links rest, fetched := t.fetched } : State) =
          { s1 with main := .links rest } := by
        rw [f4]
      rw [hst] at hf
      have hgoal : enqueueLinks env.lib ({ s1 with main := .links rest } : State).site.link
          env.opt linkHandle rest { s1 with main := .links rest } =
          .ret { t with main := .links rest } := by
        show enqueueLinks env.lib s1.site.link env.opt linkHandle rest _ = _
        rw [← e2] at hf
        exact hf
      exact ih { s1 with main := .links rest } { t with main := .links rest }
        rfl (e3.trans hp) hgoal

/-- The call `uriEnqueue(site.link, &opt, linkHandle)` of `main`, as a function, is what
the operations `mainFetch` and `mainLink` compute when nothing is interleaved (the log
of fetches aside, which only the operations keep). -/
theorem uriEnqueue_as_steps {URL : Type} (env : Env URL) (s t : State)
    (hm : s.main = .fetch) (hp : s.panicked = false)
    (h : uriEnqueue env s.site.link linkHandle s = .ret t) :
    ∃ n, execFrom env s (.mainFetch :: List.replicate n .mainLink) =
      { t with main := .signal, fetched := s.site :: s.fetched } := by
  have hrun : ¬ (s.main = .returned ∨ s.panicked = true) := by simp [hm, hp]
  unfold uriEnqueue at h
  cases hreq : env.request s.site.link with
  | none =>
    simp only [hreq, Outcome.ret.injEq] at h
    subst h
    refine ⟨0, ?_⟩
    simp only [List.replicate_zero, execFrom]
    unfold step step?
    rw [if_neg hrun]
    simp only [perform, hm, if_true, hreq, Option.getD_some]
  | some body =>
    simp only [hreq] at h
    refine ⟨(searchLinks env.FindAll (env.FindAll ["a"] body) env.opt).length + 1, ?_⟩
    have hstep : step env s .mainFetch =
        { s with main := .links (searchLinks env.FindAll (env.FindAll ["a"] body) env.opt),
                 fetched := s.site :: s.fetched } := by
      unfold step step?
      rw [if_neg hrun]
      simp only [perform, hm, if_true, hreq, Option.getD_some]
    simp only [execFrom]
    rw [hstep]
    obtain ⟨hf, _, _, _⟩ := enqueueLinks_frame env.lib s.site.link env.opt
      (.links (searchLinks env.FindAll (env.FindAll ["a"] body) env.opt))
      (s.site :: s.fetched) _ s t h
    exact mainLink_steps env _
      { s with main := .links (searchLinks env.FindAll (env.FindAll ["a"] body) env.opt),
               fetched := s.site :: s.fetched }
      { t with main := .links (searchLinks env.FindAll (env.FindAll ["a"] body) env.opt),
               fetched := s.site :: s.fetched } rfl hp hf

/-! ## The depth of a queued item when the operand is evaluated at once -/

theorem InvChain_step {URL : Type} (env : Env URL)
    (hMD : env.opt.Search.MaxDepth + 1 < 2 ^ uintBits) (s s1 : State)
    (hi : Inv env s) (hl : InvLinks env s) (h : InvChain env s)
    (hE : s.spawned = [] ∨ s1.site = s.site) (hstep : Step env s s1) :
    InvChain env s1 := by
  obtain ⟨k1, k2⟩ := h
  have hsub : ∀ (item : depthInfo) (d : depthInfo),
      d ∈ s.sending.erase item ++ item :: s.signalling ++ s.enqDone → item ∈ s.sending →
      d ∈ s.sending ++ s.signalling ++ s.enqDone := by
    intro item d hd hitem
    simp only [List.mem_append, List.mem_cons] at hd ⊢
    rcases hd with (h1 | rfl | h1) | h1
    · exact Or.inl (Or.inl (List.mem_of_mem_erase h1))
    · exact Or.inl (Or.inl hitem)
    · exact Or.inl (Or.inr h1)
    · exact Or.inr h1
  cases hstep with
  | recvSeed h1 h2 h3 =>
    refine ⟨?_, k2⟩
    dsimp only
    intro u hu
    have := (hi.seed h2).2.2.2.2.2.2.1
    rw [this] at hu
    simp at hu
  | recvAccept item h1 h2 h3 h4 =>
    refine ⟨?_, ?_⟩ <;> dsimp only
    · intro u hu
      rcases hE with hE | hE
      · rw [hE] at hu; simp at hu
      · dsimp only at hE
        rw [hE]
        exact k1 u hu
    · intro d hd
      exact k2 d (hsub item d hd h2)
  | recvDrop item h1 h2 h3 h4 =>
    refine ⟨?_, ?_⟩ <;> dsimp only
    · intro u hu
      rcases hE with hE | hE
      · rw [hE] at hu; simp at hu
      · dsimp only at hE
        rw [hE]
        exact k1 u hu
    · intro d hd
      exact k2 d (hsub item d hd h2)
  | evalOperand u hu =>
    refine ⟨?_, ?_⟩ <;> dsimp only
    · intro w hw
      exact k1 w (List.mem_of_mem_erase hw)
    · intro d hd
      simp only [List.cons_append, List.mem_cons] at hd
      rcases hd with rfl | hd
      · obtain ⟨hf, hy⟩ := k1 u hu
        refine ⟨s.site, hf, ?_, hy⟩
        have hle := hi.depth.2.2.1 s.site hf
        exact Nat.mod_eq_of_lt (by omega)
      · exact k2 d hd
  | linkClaim link rest v h1 h2 h3 =>
    refine ⟨?_, k2⟩
    dsimp only
    have hacc : s.accepted = s.site :: s.driverDone := by
      have := hi.driver
      unfold InvDriver at this
      simpa [h1, MainPC.busy] using this
    have hfet : s.fetched = s.accepted := by
      have := hi.log.2.2
      simpa [h1] using this
    have hsite : s.site ∈ s.fetched := by
      rw [hfet, hacc]
      exact List.mem_cons_self _ _
    intro u hu
    rcases List.mem_cons.mp hu with rfl | hu
    · obtain ⟨body, pre, hb, hp⟩ := hl _ h1
      refine ⟨hsite, body, link, hb, ?_, h2⟩
      rw [← hp]
      simp
    · exact k1 u hu
  | fetchErr h1 h2 =>
    refine ⟨?_, ?_⟩ <;> dsimp only
    · intro u hu
      exact ⟨List.mem_cons_of_mem _ (k1 u hu).1, (k1 u hu).2⟩
    · intro d hd
      obtain ⟨p, hp, hrest⟩ := k2 d hd
      exact ⟨p, List.mem_cons_of_mem _ hp, hrest⟩
  | fetchOk body h1 h2 =>
    refine ⟨?_, ?_⟩ <;> dsimp only
    · intro u hu
      exact ⟨List.mem_cons_of_mem _ (k1 u hu).1, (k1 u hu).2⟩
    · intro d hd
      obtain ⟨p, hp, hrest⟩ := k2 d hd
      exact ⟨p, List.mem_cons_of_mem _ hp, hrest⟩
  | enqSignal item h1 h2 h3 =>
    refine ⟨k1, ?_⟩
    dsimp only
    intro d hd
    refine k2 d ?_
    simp only [List.mem_append, List.mem_cons] at hd ⊢
    rcases hd with (h4 | h4) | rfl | h4
    · exact Or.inl (Or.inl h4)
    · exact Or.inl (Or.inr (List.mem_of_mem_erase h4))
    · exact Or.inl (Or.inr h1)
    · exact Or.inr h4
  | _ => exact ⟨k1, k2⟩

theorem site_of_step? {URL : Type} (env : Env URL) (s s1 : State) (a : Action)
    (h : step? env s a = some s1) :
    (∃ item, a = .recvItem item) ∨ a = .recvSeed ∨ s1.site = s.site := by
  unfold step? at h
  split_ifs at h with hrun
  cases a with
  | recvSeed => exact Or.inr (Or.inl rfl)
  | recvItem item => exact Or.inl ⟨item, rfl⟩
  | mainFetch =>
    right; right
    simp only [perform] at h
    split_ifs at h
    split at h <;> (simp only [Option.some.injEq] at h; subst h; rfl)
  | mainLink =>
    right; right
    simp only [perform] at h
    split at h
    · simp only [Option.some.injEq] at h; subst h; rfl
    · rename_i link rest hm
      cases hres : enqueueLink env.lib s.site.link env.opt linkHandle link
          { s with main := .links rest } with
      | panic =>
        simp only [hres, Option.some.injEq] at h
        subst h
        rfl
      | ret t =>
        simp only [hres, Option.some.injEq] at h
        subst h
        unfold enqueueLink at hres
        split at hres
        · simp at hres
        · split at hres
          · simp only [Outcome.ret.injEq] at hres
            rw [← hres]
            exact (linkHandle_keeps _ _).1
          · simp only [Outcome.ret.injEq] at hres
            rw [← hres]
    · simp at h
  | termDec =>
    right; right
    simp only [perform] at h
    by_cases hc : s.term = .dec
    · rw [if_pos hc] at h
      simp only [Option.some.injEq] at h
      subst h
      rfl
    · rw [if_neg hc] at h
      simp at h
  | _ =>
    right; right
    simp only [perform] at h
    split_ifs at h
    simp only [Option.some.injEq] at h
    subst h
    rfl

theorem eager_invariants {URL : Type} (env : Env URL)
    (hMD : env.opt.Search.MaxDepth + 1 < 2 ^ uintBits) (sched : List Action) :
    ∀ s : State, Inv env s → InvLinks env s → InvChain env s →
      eagerFrom env s sched = true →
      Inv env (execFrom env s sched) ∧ InvChain env (execFrom env s sched) := by
  induction sched with
  | nil => intro s hi _ hc _; exact ⟨hi, hc⟩
  | cons a rest ih =>
    intro s hi hl hc hE
    simp only [eagerFrom, Bool.and_eq_true] at hE
    obtain ⟨hE1, hE2⟩ := hE
    simp only [execFrom]
    cases hs : step? env s a with
    | none =>
      have hstep : step env s a = s := by simp [step, hs]
      rw [hstep] at hE2 ⊢
      exact ih s hi hl hc hE2
    | some s1 =>
      have hstep : step env s a = s1 := by simp [step, hs]
      rw [hstep] at hE2 ⊢
      obtain ⟨hst, _, _⟩ := step?_sound env s s1 a hs
      have hE3 : s.spawned = [] ∨ s1.site = s.site := by
        rcases site_of_step? env s s1 a hs with h1 | h1 | h1
        · obtain ⟨item, rfl⟩ := h1
          exact Or.inl (List.isEmpty_iff.mp hE1)
        · subst h1
          left
          have hsp : s.seedPending = true := by
            unfold step? at hs
            split_ifs at hs
            simp only [perform] at hs
            split_ifs at hs with hc2
            exact hc2.2.1
          exact (hi.seed hsp).2.2.2.2.2.2.1
        · exact Or.inr h1
      exact ih s1 (Inv_step env s s1 hi hst) (InvLinks_step env s s1 hl hst)
        (InvChain_step env hMD s s1 hi hl hc hE3 hst) hE2

/-- The depth chain under eager evaluation: when `MaxDepth + 1` does not wrap and every
enqueuer evaluates its operand before the next receive, every item received from
`queue` is the seed item at depth 0, or an item `(u, d)` with `0 < d <= MaxDepth + 1`
for which an item `(p, d - 1)` with `d - 1 <= MaxDepth` was fetched and yielded `u`. -/
theorem depth_chain_of_eager {URL : Type} (env : Env URL)
    (hMD : env.opt.Search.MaxDepth + 1 < 2 ^ uintBits) (sched : List Action)
    (hE : eagerFrom env (State.init env) sched = true) :
    ∀ d ∈ (exec env sched).placed, d = ⟨env.args0, 0⟩ ∨
      (0 < d.depth ∧ d.depth ≤ env.opt.Search.MaxDepth + 1 ∧
        ∃ p ∈ (exec env sched).fetched, p.depth ≤ env.opt.Search.MaxDepth ∧
          d.depth = p.depth + 1 ∧ Yields env p d.link) := by
  have h0 : InvChain env (State.init env) := by
    constructor
    · intro u hu; simp [State.init] at hu
    · intro d hd; simp [State.init] at hd
  have h0l : InvLinks env (State.init env) := by
    intro rest hr; simp [State.init] at hr
  obtain ⟨hi, hc⟩ := eager_invariants env hMD sched (State.init env) (Inv_init env) h0l h0 hE
  intro d hd
  have hP := hi.placed.1
  have hd2 := hP.mem_iff.mp hd
  rcases List.mem_append.mp hd2 with h1 | h1
  · left
    cases hsp : (execFrom env (State.init env) sched).seedPending
    · simpa [hsp] using h1
    · simp [hsp] at h1
  · right
    obtain ⟨p, hp, hdp, hy⟩ := hc.2 d (by
      simp only [List.mem_append] at h1 ⊢
      rcases h1 with h1 | h1
      · exact Or.inl (Or.inr h1)
      · exact Or.inr h1)
    have hle := hi.depth.2.2.1 p hp
    exact ⟨by omega, by omega, p, hp, hle, hdp, hy⟩

/-! ## The claims -/

/-- C1 (the code departs from the claim): in the cycle fixture A→B→A with `depth: 1`
there is a schedule in which the post-decrement value of `goCount` is 0 and `queue` and
`stopCh` are closed while the item B, already dequeued into `site`, is still to be
processed: the enqueuer's signal for B is decremented before `main` reaches its
`goCount.Increment()`.  The zero is not final: the next operation of `main` raises the
counter to 1, and the run ends with `main` sending on the closed `stopCh`.  In this
schedule the enqueuer evaluates its operand before the receive, so the run does not
depend on when `site.depth` is read. -/
theorem shutdown_fires_before_register :
    (exec cycleEnv raceSched).goCount = 0 ∧
    (exec cycleEnv raceSched).queueClosed = true ∧
    (exec cycleEnv raceSched).stopClosed = true ∧
    (exec cycleEnv raceSched).term = .done ∧
    (exec cycleEnv raceSched).main = .inc ∧
    (exec cycleEnv raceSched).site = itemB ∧
    itemB ∉ (exec cycleEnv raceSched).fetched ∧
    (exec cycleEnv (raceSched ++ [.mainInc])).goCount = 1 ∧
    (exec cycleEnv (raceSched ++ raceTail)).main = .signal ∧
    (exec cycleEnv (raceSched ++ raceTail)).panicked = true ∧
    eagerFrom cycleEnv (State.init cycleEnv) (raceSched ++ raceTail) = true := by
  decide

/-- C2: in every run that has reached quiescence (the range loop of `main` has ended on
the closed `queue`), whatever `request` returns, the number of `register()` calls equals
the number of `complete()` calls and the counter is 0; the driver has signalled exactly once for every item
it accepted; the enqueuers that signalled are exactly the claimed links and none is
left; and every item dropped for `depth > MaxDepth` was registered once (by the
handler), completed once (by its enqueuer), and neither registered nor completed by
the driver. -/
theorem registers_eq_completes_at_quiescence {URL : Type} (env : Env URL)
    (sched : List Action) (hq : (exec env sched).main = .returned) :
    (exec env sched).registers = (exec env sched).completes ∧
    (exec env sched).goCount = 0 ∧
    (exec env sched).driverDone = (exec env sched).accepted ∧
    (∀ d ∈ (exec env sched).accepted, (exec env sched).driverDone.count d = 1) ∧
    List.Perm ((exec env sched).enqDone.map depthInfo.link) (exec env sched).claimed ∧
    ((exec env sched).spawned = [] ∧ (exec env sched).sending = [] ∧
      (exec env sched).signalling = [] ∧ (exec env sched).seedPending = false) ∧
    (∀ d ∈ (exec env sched).dropped,
      env.opt.Search.MaxDepth < d.depth ∧
      (exec env sched).claimed.count d.link = 1 ∧
      ((exec env sched).enqDone.map depthInfo.link).count d.link = 1 ∧
      (exec env sched).accepted.count d = 0 ∧ (exec env sched).driverDone.count d = 0) :=
  quiescent_of_inv env (exec env sched) (exec_inv env sched) hq

/-- Witness for C2: the complete run of the fixture with `depth: 0`, in which the seed
is accepted and the item of B is dropped, has two registrations and two completions. -/
theorem registers_eq_completes_witness :
    (exec shallowEnv shallowSched).main = .returned ∧
    (exec shallowEnv shallowSched).dropped = [itemB] ∧
    (exec shallowEnv shallowSched).registers = 2 ∧
    (exec shallowEnv shallowSched).registers = (exec shallowEnv shallowSched).completes :=
  ⟨by decide, by decide, by decide,
    (registers_eq_completes_at_quiescence shallowEnv shallowSched (by decide)).1⟩

/-- C3: the link handler is `tryClaim`.  On any state `V` and any candidate `u`, it
registers `u` (counter plus one, `u` logged as claimed) and starts the enqueuer of `u`
exactly when `u` is not in the visited set, and leaves the state alone exactly when it
is; afterwards `u` is visited and so is every earlier member.  Over a whole run no link
is claimed twice, no two items received from `queue` carry the same link, every item
received is the seed item or carries a claimed link, and `args[0]`, visited from the
start, is never claimed: the only item with that link is the seed item. -/
theorem linkHandle_is_tryClaim {URL : Type} (env : Env URL) (sched : List Action)
    (u : String) (V : State) :
    (((linkHandle u V).goCount = V.goCount + 1 ∧
        (linkHandle u V).spawned = u :: V.spawned ∧
        (linkHandle u V).claimed = u :: V.claimed) ↔ u ∉ V.visited) ∧
    (linkHandle u V = V ↔ u ∈ V.visited) ∧
    u ∈ (linkHandle u V).visited ∧
    (∀ w ∈ V.visited, w ∈ (linkHandle u V).visited) ∧
    (exec env sched).claimed.Nodup ∧
    ((exec env sched).placed.map depthInfo.link).Nodup ∧
    (∀ d ∈ (exec env sched).placed,
      d = ⟨env.args0, 0⟩ ∨ d.link ∈ (exec env sched).claimed) ∧
    env.args0 ∈ (exec env sched).visited ∧
    env.args0 ∉ (exec env sched).claimed ∧
    (∀ d ∈ (exec env sched).placed, d.link = env.args0 → d = ⟨env.args0, 0⟩) := by
  have hinv := exec_inv env sched
  obtain ⟨p1, p2, p3⟩ := placed_links_nodup env _ hinv
  obtain ⟨v1, v2, v3, v4⟩ := hinv.visited
  refine ⟨?_, ?_, ?_, ?_, v3, p1, p2, v1, v4, p3⟩
  · by_cases hu : u ∈ V.visited
    · rw [linkHandle_of_mem u V hu]
      constructor
      · intro h
        have := h.1
        omega
      · intro h
        exact absurd hu h
    · rw [linkHandle_of_not_mem u V hu]
      exact ⟨fun _ => hu, fun _ => ⟨rfl, rfl, rfl⟩⟩
  · by_cases hu : u ∈ V.visited
    · exact ⟨fun _ => hu, fun _ => linkHandle_of_mem u V hu⟩
    · constructor
      · intro h
        have hg : (linkHandle u V).goCount = V.goCount := by rw [h]
        rw [linkHandle_of_not_mem u V hu] at hg
        simp at hg
      · intro h
        exact absurd h hu
  · by_cases hu : u ∈ V.visited
    · rw [linkHandle_of_mem u V hu]; exact hu
    · rw [linkHandle_of_not_mem u V hu]; exact List.mem_cons_self _ _
  · intro w hw
    by_cases hu : u ∈ V.visited
    · rw [linkHandle_of_mem u V hu]; exact hw
    · rw [linkHandle_of_not_mem u V hu]; exact List.mem_cons_of_mem _ hw

/-- C4 (the code departs from the claim): in the cycle fixture A→B→A with `depth: 1`
there is a run in which the driver loop does not return.  After the early shutdown of
C1, `main` fetches B, finds A visited, and sends on the closed `stopCh`: the program
panics with `main` at its signal, and no continuation of the schedule makes `main`
return.  Each of A and B was fetched once.  (Under the schedule `cycleCleanSched`, in
which `main` increments first, the same input makes `main` return.) -/
theorem cycle_run_panics (more : List Action) :
    (exec cycleEnv cycleCleanSched).main = .returned ∧
    (exec cycleEnv (raceSched ++ raceTail)).panicked = true ∧
    (exec cycleEnv (raceSched ++ raceTail)).fetched = [itemB, ⟨"http://a.test", 0⟩] ∧
    (exec cycleEnv (raceSched ++ raceTail)).visited = ["http://a.test/b", "http://a.test"] ∧
    (exec cycleEnv (raceSched ++ raceTail ++ more)).main = .signal ∧
    (exec cycleEnv (raceSched ++ raceTail ++ more)).main ≠ .returned := by
  have hp : (exec cycleEnv (raceSched ++ raceTail)).panicked = true := by decide
  have hm : (exec cycleEnv (raceSched ++ raceTail)).main = .signal := by decide
  have hfix : exec cycleEnv (raceSched ++ raceTail ++ more) =
      exec cycleEnv (raceSched ++ raceTail) := by
    unfold exec
    rw [execFrom_append]
    exact execFrom_of_panicked cycleEnv more _ hp
  refine ⟨by decide, hp, by decide, by decide, ?_, ?_⟩
  · rw [hfix]; exact hm
  · rw [hfix, hm]; simp

/-- C5: when the driver dequeues an item with `depth > MaxDepth`, in any state a run can
be in, it goes straight back to the receive: the item is logged as dropped, nothing is
fetched, nothing is added to the visited set, no link is claimed, no enqueuer is
started, the counter is untouched, and no operation of the loop body is enabled before
the next receive.  In every run every fetched item has `depth <= MaxDepth`, so the
dropped item is never fetched. -/
theorem over_depth_item_is_dropped {URL : Type} (env : Env URL) (sched : List Action)
    (item : depthInfo) (hd : env.opt.Search.MaxDepth < item.depth)
    (hen : (step? env (exec env sched) (.recvItem item)).isSome = true) :
    (step env (exec env sched) (.recvItem item)).main = .recv ∧
    (step env (exec env sched) (.recvItem item)).dropped = item :: (exec env sched).dropped ∧
    (step env (exec env sched) (.recvItem item)).fetched = (exec env sched).fetched ∧
    (step env (exec env sched) (.recvItem item)).visited = (exec env sched).visited ∧
    (step env (exec env sched) (.recvItem item)).claimed = (exec env sched).claimed ∧
    (step env (exec env sched) (.recvItem item)).spawned = (exec env sched).spawned ∧
    (step env (exec env sched) (.recvItem item)).goCount = (exec env sched).goCount ∧
    (step env (exec env sched) (.recvItem item)).accepted = (exec env sched).accepted ∧
    (step? env (step env (exec env sched) (.recvItem item)) .mainInc = none ∧
      step? env (step env (exec env sched) (.recvItem item)) .mainFetch = none ∧
      step? env (step env (exec env sched) (.recvItem item)) .mainLink = none ∧
      step? env (step env (exec env sched) (.recvItem item)) .mainSignal = none) ∧
    (∀ sched2, ∀ d ∈ (exec env sched2).fetched, d.depth ≤ env.opt.Search.MaxDepth) ∧
    (∀ sched2, item ∉ (exec env sched2).fetched) := by
  have hfetch : ∀ sched2, ∀ d ∈ (exec env sched2).fetched,
      d.depth ≤ env.opt.Search.MaxDepth := fun sched2 => (exec_inv env sched2).depth.2.2.1
  obtain ⟨s1, hs1⟩ := Option.isSome_iff_exists.mp hen
  have hstep : step env (exec env sched) (.recvItem item) = s1 := by
    simp [step, hs1]
  rw [hstep]
  have hs2 := hs1
  unfold step? at hs2
  split_ifs at hs2 with hrun
  simp only [perform] at hs2
  split_ifs at hs2 with hc
  simp only [receive, if_neg (Nat.not_le.mpr hd), Option.some.injEq] at hs2
  subst hs2
  refine ⟨rfl, rfl, rfl, rfl, rfl, rfl, rfl, rfl, body_disabled_at_recv env _ rfl, hfetch, ?_⟩
  intro sched2 hmem
  exact absurd (hfetch sched2 item hmem) (Nat.not_le.mpr hd)

/-- Witness for C5: in the fixture with `depth: 0` the enqueuer of B is blocked in its
send with the item (B, 1); the driver receives it and drops it. -/
theorem over_depth_item_witness :
    shallowEnv.opt.Search.MaxDepth < itemB.depth ∧
    (step shallowEnv (exec shallowEnv shallowPrefix) (.recvItem itemB)).main = .recv ∧
    (step shallowEnv (exec shallowEnv shallowPrefix) (.recvItem itemB)).dropped = [itemB] :=
  ⟨by decide,
    (over_depth_item_is_dropped shallowEnv shallowPrefix itemB (by decide) (by decide)).1,
    by decide⟩

/-- C6: when base and reference both normalise and parse, `resolveRef` returns an error
with an empty link exactly when the hostname of the resolved URL is empty, or `SameHost`
is set and that hostname differs from the base's; otherwise it returns the string of the
resolved URL with a nil error.  `uriEnqueue` hands a link to its handler only when
`resolveRef` returned it with a nil error, so in every run every claimed link, and the
link of every item received from `queue` other than the seed, is such a link: with
`SameHost` set it is the string of a URL whose hostname is the hostname of the page it
was found on. -/
theorem resolveRef_same_host {URL : Type} (env : Env URL) (base ref nbase nref : String)
    (baseURL refURL : URL)
    (hr : env.lib.NormalizeURLString ref = some nref)
    (hpr : env.lib.Parse nref = .ok refURL)
    (hb : env.lib.NormalizeURLString base = some nbase)
    (hpb : env.lib.Parse nbase = .ok baseURL) :
    ((∃ e, resolveRef env.lib base ref env.opt.Search.SameHost = .ret ("", some e)) ↔
      (env.lib.Hostname (env.lib.ResolveReference baseURL refURL) = "" ∨
        (env.opt.Search.SameHost = true ∧
          env.lib.Hostname (env.lib.ResolveReference baseURL refURL) ≠
            env.lib.Hostname baseURL))) ∧
    (¬ (env.lib.Hostname (env.lib.ResolveReference baseURL refURL) = "" ∨
        (env.opt.Search.SameHost = true ∧
          env.lib.Hostname (env.lib.ResolveReference baseURL refURL) ≠
            env.lib.Hostname baseURL)) →
      resolveRef env.lib base ref env.opt.Search.SameHost =
        .ret (env.lib.URLString (env.lib.ResolveReference baseURL refURL), none)) ∧
    (∀ uri log, uriEnqueue env uri (fun v l => v :: l) [] = .ret log → ∀ v ∈ log,
      ∃ link, resolveRef env.lib uri link env.opt.Search.SameHost = .ret (v, none)) ∧
    (∀ sched, ∀ d ∈ (exec env sched).placed, d = ⟨env.args0, 0⟩ ∨
      ∃ uri link pageURL resURL,
        resolveRef env.lib uri link env.opt.Search.SameHost = .ret (d.link, none) ∧
        (∃ n, env.lib.NormalizeURLString uri = some n ∧ env.lib.Parse n = .ok pageURL) ∧
        d.link = env.lib.URLString resURL ∧
        env.lib.Hostname resURL ≠ "" ∧
        (env.opt.Search.SameHost = true →
          env.lib.Hostname resURL = env.lib.Hostname pageURL)) := by
  have hres : resolveRef env.lib base ref env.opt.Search.SameHost =
      (if (env.lib.Hostname (env.lib.ResolveReference baseURL refURL)).length = 0 then
        .ret ("", some ("invalid uri: " ++ ""))
      else if (env.opt.Search.SameHost &&
          env.lib.Hostname (env.lib.ResolveReference baseURL refURL)
            != env.lib.Hostname baseURL) = true then
        .ret ("", some ("external hostname: " ++
          env.lib.Hostname (env.lib.ResolveReference baseURL refURL)))
      else .ret (env.lib.URLString (env.lib.ResolveReference baseURL refURL), none)) := by
    simp only [resolveRef, MustNormalizeURLString, hr, hpr, hb, hpb]
  have hlen : ∀ x : String, x.length = 0 ↔ x = "" := by
    intro x
    constructor
    · intro h
      have : x.data = [] := List.length_eq_zero.mp h
      exact String.ext this
    · intro h; rw [h]; rfl
  refine ⟨?_, ?_, ?_, ?_⟩
  · rw [hres]
    by_cases h1 : env.lib.Hostname (env.lib.ResolveReference baseURL refURL) = ""
    · rw [if_pos ((hlen _).mpr h1)]
      exact ⟨fun _ => Or.inl h1, fun _ => ⟨_, rfl⟩⟩
    · rw [if_neg (fun h => h1 ((hlen _).mp h))]
      by_cases h2 : env.opt.Search.SameHost = true ∧
          env.lib.Hostname (env.lib.ResolveReference baseURL refURL) ≠
            env.lib.Hostname baseURL
      · have hc : (env.opt.Search.SameHost &&
            env.lib.Hostname (env.lib.ResolveReference baseURL refURL)
              != env.lib.Hostname baseURL) = true := by
          simp [h2.1, h2.2]
        rw [if_pos hc]
        exact ⟨fun _ => Or.inr h2, fun _ => ⟨_, rfl⟩⟩
      · have hc : ¬ (env.opt.Search.SameHost &&
            env.lib.Hostname (env.lib.ResolveReference baseURL refURL)
              != env.lib.Hostname baseURL) = true := by
          intro hc
          apply h2
          simpa using hc
        rw [if_neg hc]
        constructor
        · rintro ⟨e, he⟩
          simp at he
        · rintro (h | h)
          · exact absurd h h1
          · exact absurd h h2
  · intro hn
    rw [hres]
    have h1 : env.lib.Hostname (env.lib.ResolveReference baseURL refURL) ≠ "" :=
      fun h => hn (Or.inl h)
    rw [if_neg (fun h => h1 ((hlen _).mp h))]
    have hc : ¬ (env.opt.Search.SameHost &&
        env.lib.Hostname (env.lib.ResolveReference baseURL refURL)
          != env.lib.Hostname baseURL) = true := by
      intro hc
      apply hn
      right
      simpa using hc
    rw [if_neg hc]
  · intro uri log hlog v hv
    unfold uriEnqueue at hlog
    cases hreq : env.request uri with
    | none =>
      simp only [hreq, Outcome.ret.injEq] at hlog
      rw [← hlog] at hv
      simp at hv
    | some body =>
      simp only [hreq] at hlog
      rcases enqueueLinks_log env.lib uri env.opt _ [] log hlog v hv with h | ⟨link, _, h⟩
      · simp at h
      · exact ⟨link, h⟩
  · intro sched d hd
    have hinv := exec_inv env sched
    rcases (placed_links_nodup env _ hinv).2.1 d hd with h | h
    · exact Or.inl h
    · right
      obtain ⟨uri, link, hok⟩ := hinv.resolved d.link h
      obtain ⟨nr, rU, nb, bU, _, _, e3, e4, e5, e6, e7⟩ :=
        resolveRef_ok_inv env.lib uri link d.link env.opt.Search.SameHost hok
      exact ⟨uri, link, bU, env.lib.ResolveReference bU rU, hok, ⟨nb, e3, e4⟩, e5, e6, e7⟩

/-- Witness for C6: on the fixture, with `SameHost` set, the reference `http://b.test/`
against the base `http://a.test` normalises and parses, resolves to host `b.test`, and
`resolveRef` returns an error with an empty link. -/
theorem resolveRef_same_host_witness :
    (∃ e, resolveRef cycleEnv.lib "http://a.test" "http://b.test/"
        cycleEnv.opt.Search.SameHost = .ret ("", some e)) ∧
    resolveRef cycleEnv.lib "http://a.test" "/b" cycleEnv.opt.Search.SameHost =
      .ret ("http://a.test/b", none) :=
  ⟨(resolveRef_same_host cycleEnv "http://a.test" "http://b.test/" "http://a.test"
      "http://b.test" ⟨"a.test", ""⟩ ⟨"b.test", ""⟩ rfl rfl rfl rfl).1.mpr
      (Or.inr ⟨rfl, by decide⟩),
    by decide⟩

/-- C7 (the code departs from the claim): for an href that the normaliser rejects
(`:` in the fixture), `resolveRef` does not return: `MustNormalizeURLString` panics.
`uriEnqueue` on the page with the hrefs `:` and `/b` panics as well, and in the run the
program aborts inside the loop of `uriEnqueue` with both links still unhandled: the
link `/b` is never claimed and the driver never signals. -/
theorem malformed_href_panics :
    demoLib.NormalizeURLString ":" = none ∧
    resolveRef demoLib "http://a.test" ":" true = .panic ∧
    uriEnqueue malformedEnv "http://a.test" (fun v l => v :: l) [] = .panic ∧
    (exec malformedEnv malformedSched).panicked = true ∧
    (exec malformedEnv malformedSched).main = .links [":", "/b"] ∧
    (exec malformedEnv malformedSched).claimed = [] ∧
    (exec malformedEnv malformedSched).driverDone = [] := by
  decide

/-- C8: `searchLinks` returns exactly the link list of the spec: the `href` values, in
element order and then attribute order, of the elements that pass the containment
filter (every element when `ContainsTags` is empty, otherwise those for which the
finder returns at least one match).  With `ContainsTags` empty that is every href of
every element; an element that fails the filter or has no `href` contributes nothing;
and with `ContainsTags = ["img"]` on the fixture, the anchor containing an `img` gives
its href while the anchor without one and the element without `href` give none. -/
theorem searchLinks_eq_spec (FindAll : List String → Node → List Node)
    (elems : List Node) (opt : crawlOpt) (v : String) :
    searchLinks FindAll elems opt = searchLinksSpec FindAll elems opt ∧
    (v ∈ searchLinks FindAll elems opt ↔
      ∃ elem ∈ elems,
        (opt.Search.ContainsTags = [] ∨ FindAll opt.Search.ContainsTags elem ≠ []) ∧
        ∃ attr ∈ elem.Attr, attr.Key = "href" ∧ attr.Val = v) ∧
    (opt.Search.ContainsTags = [] →
      searchLinks FindAll elems opt = (elems.map hrefsOf).flatten) ∧
    searchLinks demoFindAll imgElems imgOpt = ["/with"] := by
  have heq : searchLinks FindAll elems opt = searchLinksSpec FindAll elems opt := by
    unfold searchLinks
    simp only []
    rw [searchLinks_foldl]
    simp
  have hpass : ∀ e, passesContainment FindAll opt e = true ↔
      (opt.Search.ContainsTags = [] ∨ FindAll opt.Search.ContainsTags e ≠ []) := by
    intro e
    unfold passesContainment
    cases h1 : opt.Search.ContainsTags <;> cases h2 : FindAll opt.Search.ContainsTags e <;>
      simp_all
  refine ⟨heq, ?_, ?_, by decide⟩
  · rw [heq]
    unfold searchLinksSpec
    constructor
    · intro hv
      obtain ⟨l, hl, hvl⟩ := List.mem_flatten.mp hv
      obtain ⟨e, he, rfl⟩ := List.mem_map.mp hl
      obtain ⟨he1, hp⟩ := List.mem_filter.mp he
      unfold hrefsOf at hvl
      obtain ⟨attr, hattr, rfl⟩ := List.mem_map.mp hvl
      obtain ⟨ha, hk⟩ := List.mem_filter.mp hattr
      exact ⟨e, he1, (hpass e).mp hp, attr, ha, by simpa using hk, rfl⟩
    · rintro ⟨e, he, hp, attr, ha, hk, rfl⟩
      refine List.mem_flatten.mpr ⟨hrefsOf e, ?_, ?_⟩
      · exact List.mem_map.mpr ⟨e, List.mem_filter.mpr ⟨he, (hpass e).mpr hp⟩, rfl⟩
      · unfold hrefsOf
        exact List.mem_map.mpr ⟨attr, List.mem_filter.mpr ⟨ha, by simpa using hk⟩, rfl⟩
  · intro hempty
    rw [heq]
    unfold searchLinksSpec
    have : elems.filter (passesContainment FindAll opt) = elems := by
      refine List.filter_eq_self.mpr ?_
      intro e _
      exact (hpass e).mpr (Or.inl hempty)
    rw [this]

/-- C9 (the code departs from the claim): the seed is put in the visited set and on the
queue as the raw `args[0]`, not in canonical form.  On the fixture with the seed
`http://a.test/`, whose canonical form (normalise, then resolve, as `resolveRef` does)
is `http://a.test`: the visited set starts as the raw string, the page's link `/` to
itself resolves to the canonical string, which is not recognised as visited, is claimed
and queued, and the seed page is fetched a second time. -/
theorem seed_is_not_canonicalised :
    (State.init slashSeedEnv).visited = ["http://a.test/"] ∧
    resolveRef demoLib "http://a.test/" "http://a.test/" true =
      .ret ("http://a.test", none) ∧
    resolveRef demoLib "http://a.test/" "/" true = .ret ("http://a.test", none) ∧
    "http://a.test" ∉ (State.init slashSeedEnv).visited ∧
    (exec slashSeedEnv slashSeedSched).claimed = ["http://a.test"] ∧
    (exec slashSeedEnv slashSeedSched).visited = ["http://a.test", "http://a.test/"] ∧
    (exec slashSeedEnv slashSeedSched).placed =
      [⟨"http://a.test", 1⟩, ⟨"http://a.test/", 0⟩] ∧
    (exec slashSeedEnv slashSeedSched).fetched =
      [⟨"http://a.test", 1⟩, ⟨"http://a.test/", 0⟩] ∧
    slashSeedEnv.request "http://a.test" = slashSeedEnv.request "http://a.test/" := by
  refine ⟨by decide, by decide, by decide, by decide, by decide, by decide, by decide,
    by decide, rfl⟩

/-- C10 (the code departs from the claim): the depth of a queued item is `site.depth + 1`
read when its enqueuer runs, and `site` is the one loop variable of `main`.  On the
fixture whose seed page links to B and C with `depth: 1`, the enqueuer of C evaluates
its operand after `main` has received (B, 1): C is queued with depth 2, although the
only page that yielded it is the seed at depth 0 and the only item fetched at depth 1
(B) yielded nothing; C is dropped and never fetched.  With `depth: 0` the same schedule
queues C at depth 2, above `MaxDepth + 1`. -/
theorem queued_depth_read_late :
    (exec fanEnv fanSched).placed =
      [⟨"http://a.test/c", 2⟩, itemB, ⟨"http://a.test", 0⟩] ∧
    (exec fanEnv fanSched).fetched = [itemB, ⟨"http://a.test", 0⟩] ∧
    (fanEnv.request itemB.link).isNone = true ∧
    (exec fanEnv fanSched).dropped = [⟨"http://a.test/c", 2⟩] ∧
    (exec fanEnv fanSched).main = .returned ∧
    fanEnv.opt.Search.MaxDepth = 1 ∧
    shallowFanEnv.opt.Search.MaxDepth = 0 ∧
    (⟨"http://a.test/c", 2⟩ : depthInfo) ∈ (exec shallowFanEnv shallowFanSched).placed ∧
    eagerFrom fanEnv (State.init fanEnv) fanSched = false := by
  decide

end XCrawl
